import Mathlib

/-!
Verification development for the Rustypipe task-pipeline runner.

The Rust sources are shallowly embedded:
* `src/util.rs`        → `replaceAll`, `rustIsWhitespace`, `uTrim`, `scanClose`,
                         `removeTokens`, `interpolate_command`
* `src/pipeline/parser.rs` → `Pipeline`, `TaskDef`, `checkDupNames`, `checkDeps`,
                         `dfs`/`dfsAll`, `validate_pipeline`
* `src/pipeline/executor.rs` → `adjOf`, `indeg0`, `ExecState`, `Step`, `Reach`,
                         `attemptGo`/`attemptLoop`, `sanitize_filename`
* `src/cli.rs`, `src/main.rs` → `mainOutcome`
Strings are modelled as `List Char` (`Str`) where character-level recursion is
needed; the Rust `String` maps to Lean `String` elsewhere.
-/

namespace Rustypipe

abbrev Str := List Char

/-- Rust `str::replace(pat, rep)`: replace all non-overlapping occurrences of
`pat`, scanning left to right.  The Rust call sites never pass an empty
pattern; for totality the empty pattern leaves the string unchanged. -/
def replaceAll (pat rep : Str) (cs : Str) : Str :=
  if hp : pat = [] then cs
  else
    match cs with
    | [] => []
    | c :: rest =>
      if pat.isPrefixOf (c :: rest) then
        rep ++ replaceAll pat rep ((c :: rest).drop pat.length)
      else
        c :: replaceAll pat rep rest
termination_by cs.length
decreasing_by
· simp only [List.length_drop]
  have hlen : 0 < pat.length := List.length_pos.mpr hp
  simp only [List.length_cons]
  omega
· simp

/-- Rust `char::is_whitespace` (the Unicode `White_Space` property), used by
`str::trim` which the executor applies to captured stdout. -/
def rustIsWhitespace (c : Char) : Bool :=
  c = ' ' ∨ c = '\t' ∨ c = '\n' ∨ c = '\r' ∨
  c = Char.ofNat 0x0B ∨ c = Char.ofNat 0x0C ∨
  c = Char.ofNat 0x85 ∨ c = Char.ofNat 0xA0 ∨
  c = Char.ofNat 0x1680 ∨
  (0x2000 ≤ c.toNat ∧ c.toNat ≤ 0x200A) ∨
  c = Char.ofNat 0x2028 ∨ c = Char.ofNat 0x2029 ∨
  c = Char.ofNat 0x202F ∨ c = Char.ofNat 0x205F ∨
  c = Char.ofNat 0x3000

/-- Rust `str::trim`: drop leading and trailing Unicode whitespace. -/
def uTrim (cs : Str) : Str :=
  ((cs.dropWhile rustIsWhitespace).reverse.dropWhile rustIsWhitespace).reverse

/-- Comparison definition taken from the specification's words ("leading and
trailing ASCII whitespace stripped"); the source (`str::trim`) strips Unicode
whitespace instead.  Kept separate to compare code against spec. -/
def asciiIsWhitespace (c : Char) : Bool :=
  c = ' ' ∨ c = '\t' ∨ c = '\n' ∨ c = '\r' ∨ c = Char.ofNat 0x0B ∨ c = Char.ofNat 0x0C

/-- Comparison definition from the specification's words: ASCII-only trim. -/
def asciiTrim (cs : Str) : Str :=
  ((cs.dropWhile asciiIsWhitespace).reverse.dropWhile asciiIsWhitespace).reverse

/-- Scanner for the lazy regex tail `.*?\x7d\x7d` (from `Regex::new(r"\{\{.*?\}\}")`
in `util.rs`): starting after an opening `\x7b\x7b`, find the earliest closing
`\x7d\x7d`; the regex `.` does not match a newline, so a newline before any
closer means there is no match.  Returns the remainder after the closer. -/
def scanClose : Str → Option Str
  | [] => none
  | c :: rest =>
    if c = '\x7d' ∧ rest.head? = some '\x7d' then some rest.tail
    else if c = '\n' then none
    else scanClose rest

theorem scanClose_length {cs : Str} : ∀ {rem : Str}, scanClose cs = some rem →
    rem.length + 2 ≤ cs.length := by
  induction cs with
  | nil => intro rem h; simp [scanClose] at h
  | cons c rest ih =>
    intro rem h
    simp only [scanClose] at h
    split at h
    · rename_i hc
      cases h
      cases rest with
      | nil => simp at hc
      | cons d rest' => simp
    · split at h
      · cases h
      · have := ih h
        simp only [List.length_cons]
        omega

/-- Terminal sweep of `interpolate_command` (`util.rs` lines 30-31):
`re.replace_all(&s, "")` for the pattern `\{\{.*?\}\}`, scanning left to
right; a position starts a match when it reads `\x7b\x7b` and a closer `\x7d\x7d`
occurs before any newline; otherwise the character is kept and scanning resumes
at the next position. -/
def removeTokens : Str → Str
  | [] => []
  | c :: rest =>
    if c = '\x7b' ∧ rest.head? = some '\x7b' then
      match h : scanClose rest.tail with
      | some rem => removeTokens rem
      | none => c :: removeTokens rest
    else c :: removeTokens rest
termination_by cs => cs.length
decreasing_by
· have h2 := scanClose_length h
  have : rest.tail.length ≤ rest.length := by
    cases rest <;> simp
  simp only [List.length_cons]
  omega
· simp
· simp

/-- Substitution step for one `vars` entry (`util.rs` lines 14-19): replace
`\x7b\x7bvars.K\x7d\x7d` and then `\x7b\x7bvars.K \x7d\x7d` by the value, verbatim. -/
def varsStep (s : Str) (kv : String × String) : Str :=
  replaceAll ("\x7b\x7bvars.".data ++ kv.1.data ++ " \x7d\x7d".data) kv.2.data
    (replaceAll ("\x7b\x7bvars.".data ++ kv.1.data ++ "\x7d\x7d".data) kv.2.data s)

/-- Substitution step for one `outputs` entry (`util.rs` lines 22-27): replace
`\x7b\x7bTASK.output\x7d\x7d` and then `\x7b\x7bTASK.output \x7d\x7d` by the trimmed output. -/
def outsStep (s : Str) (kv : String × String) : Str :=
  replaceAll ("\x7b\x7b".data ++ kv.1.data ++ ".output \x7d\x7d".data) (uTrim kv.2.data)
    (replaceAll ("\x7b\x7b".data ++ kv.1.data ++ ".output\x7d\x7d".data) (uTrim kv.2.data) s)

/-- Core of `interpolate_command` over character lists: the vars loop, then the
outputs loop, then the terminal sweep. -/
def interpolateCore (tpl : Str) (outputs vars : List (String × String)) : Str :=
  removeTokens (outputs.foldl outsStep (vars.foldl varsStep tpl))

/-- Embedding of `util.rs::interpolate_command`.  The `HashMap` arguments are
embedded as association lists whose order is the map's iteration order. -/
def interpolate_command (template : String) (outputs vars : List (String × String)) : String :=
  ⟨interpolateCore template.data outputs vars⟩

/-- A `\x7d\x7d` closer occurs somewhere in the string. -/
def HasCloser (cs : Str) : Prop :=
  ∃ a b : Str, cs = a ++ '\x7d' :: '\x7d' :: b

/-- A full `\x7b\x7b…\x7d\x7d` token occurs somewhere in the string (the spec's
"substring of the form `\x7b\x7b…\x7d\x7d`"). -/
def HasTok (cs : Str) : Prop :=
  ∃ a m b : Str, cs = a ++ '\x7b' :: '\x7b' :: (m ++ '\x7d' :: '\x7d' :: b)

theorem strRec {P : Str → Prop}
    (ind : ∀ cs : Str, (∀ ds : Str, ds.length < cs.length → P ds) → P cs)
    (cs : Str) : P cs := by
  have main : ∀ n, ∀ cs : Str, cs.length ≤ n → P cs := by
    intro n
    induction n with
    | zero =>
      intro cs hlen
      exact ind cs (fun ds hds => absurd (Nat.lt_of_lt_of_le hds hlen) (by omega))
    | succ n ih =>
      intro cs hlen
      exact ind cs (fun ds hds => ih ds (by omega))
  exact main cs.length cs (Nat.le_refl _)

theorem HasCloser_of_HasTok {cs : Str} (h : HasTok cs) : HasCloser cs := by
  obtain ⟨a, m, b, rfl⟩ := h
  exact ⟨a ++ '\x7b' :: '\x7b' :: m, b, by simp⟩

theorem HasCloser_cons {c : Char} {cs : Str} (h : HasCloser cs) :
    HasCloser (c :: cs) := by
  obtain ⟨a, b, rfl⟩ := h
  exact ⟨c :: a, b, rfl⟩

theorem HasCloser_cons_elim {c : Char} {cs : Str} (h : HasCloser (c :: cs)) :
    c = '\x7d' ∧ (∃ b, cs = '\x7d' :: b) ∨ HasCloser cs := by
  obtain ⟨a, b, habs⟩ := h
  cases a with
  | nil =>
    simp only [List.nil_append, List.cons.injEq] at habs
    exact Or.inl ⟨habs.1, b, habs.2⟩
  | cons x a' =>
    simp only [List.cons_append, List.cons.injEq] at habs
    exact Or.inr ⟨a', b, habs.2⟩

theorem scanClose_some_decomp {cs rem : Str} (h : scanClose cs = some rem) :
    ∃ pre, cs = pre ++ '\x7d' :: '\x7d' :: rem := by
  induction cs with
  | nil => simp [scanClose] at h
  | cons c rest ih =>
    simp only [scanClose] at h
    split at h
    · rename_i hc
      cases h
      cases rest with
      | nil => simp at hc
      | cons d rest' =>
        simp only [List.head?_cons, Option.some.injEq] at hc
        exact ⟨[], by simp [hc.1, hc.2]⟩
    · split at h
      · cases h
      · obtain ⟨pre, hpre⟩ := ih h
        exact ⟨c :: pre, by simp [hpre]⟩

theorem scanClose_none_no_closer {cs : Str} (h : scanClose cs = none)
    (hn : '\n' ∉ cs) : ¬ HasCloser cs := by
  induction cs with
  | nil => rintro ⟨a, b, habs⟩; simp at habs
  | cons c rest ih =>
    intro hcl
    simp only [scanClose] at h
    rcases HasCloser_cons_elim hcl with ⟨hc, b, rfl⟩ | hcl'
    · simp [hc] at h
    · split at h
      · cases h
      · split at h
        · rename_i hc
          exact hn (by simp [hc])
        · exact ih h (fun hm => hn (List.mem_cons_of_mem _ hm)) hcl'

theorem removeTokens_of_no_closer {cs : Str} (h : ¬ HasCloser cs) :
    removeTokens cs = cs := by
  induction cs with
  | nil => simp [removeTokens]
  | cons c rest ih =>
    have hrest : ¬ HasCloser rest := fun hc => h (HasCloser_cons hc)
    simp only [removeTokens]
    split
    · rename_i hb
      obtain ⟨hc, hh⟩ := hb
      split
      · rename_i rem hscan
        exfalso
        obtain ⟨pre, hpre⟩ := scanClose_some_decomp hscan
        apply hrest
        cases rest with
        | nil => simp at hh
        | cons d t =>
          simp only [List.tail_cons] at hpre
          exact ⟨d :: pre, rem, by simp [hpre]⟩
      · rw [ih hrest]
    · rw [ih hrest]

theorem newline_mem_removeTokens {cs : Str} :
    ∀ x ∈ removeTokens cs, x ∈ cs := by
  induction cs using strRec with
  | ind cs ih =>
  cases cs with
  | nil => simp [removeTokens]
  | cons c rest =>
    intro x hx
    simp only [removeTokens] at hx
    split at hx
    · rename_i hb
      split at hx
      · rename_i rem hscan
        obtain ⟨pre, hpre⟩ := scanClose_some_decomp hscan
        have hlt : rem.length < (c :: rest).length := by
          have h2 := scanClose_length hscan
          have : rest.tail.length ≤ rest.length := by cases rest <;> simp
          simp only [List.length_cons]
          omega
        have hx' := ih rem hlt x hx
        apply List.mem_cons_of_mem
        have : rem.Sublist rest := by
          have htail : rest.tail.Sublist rest := List.tail_sublist rest
          have : rem.Sublist rest.tail := by
            rw [hpre]
            exact ((rem.sublist_cons_self '\x7d').trans
              (List.sublist_cons_self _ _)).trans (List.sublist_append_right _ _)
          exact this.trans htail
        exact this.mem hx'
      · rcases List.mem_cons.mp hx with rfl | hx'
        · exact List.mem_cons_self _ _
        · exact List.mem_cons_of_mem _ (ih rest (by simp) x hx')
    · rcases List.mem_cons.mp hx with rfl | hx'
      · exact List.mem_cons_self _ _
      · exact List.mem_cons_of_mem _ (ih rest (by simp) x hx')

/-- Key sweep property: on a newline-free input, the terminal sweep leaves no
`\x7b\x7b…\x7d\x7d` token at all. -/
theorem removeTokens_no_token {cs : Str} (hn : '\n' ∉ cs) :
    ¬ HasTok (removeTokens cs) := by
  induction cs using strRec with
  | ind cs ih =>
  cases cs with
  | nil => rintro ⟨a, m, b, habs⟩; simp [removeTokens] at habs
  | cons c rest =>
    intro htok
    rw [removeTokens] at htok
    split at htok
    · rename_i hb
      obtain ⟨rfl, hh⟩ := hb
      cases rest with
      | nil => simp at hh
      | cons d t =>
        simp only [List.head?_cons, Option.some.injEq] at hh
        subst hh
        split at htok
        · rename_i rem hscan
          simp only [List.tail_cons] at hscan
          obtain ⟨pre, hpre⟩ := scanClose_some_decomp hscan
          have hlt : rem.length < ('\x7b' :: '\x7b' :: t).length := by
            have h2 := scanClose_length hscan
            simp only [List.length_cons]
            omega
          have hnr : '\n' ∉ rem := by
            intro hmem
            apply hn
            simp only [hpre, List.mem_cons, List.mem_append]
            tauto
          exact ih rem hlt hnr htok
        · rename_i hscan
          simp only [List.tail_cons] at hscan
          have hnt : '\n' ∉ t := fun hm => hn (by simp [hm])
          have hnc : ¬ HasCloser t := scanClose_none_no_closer hscan hnt
          have hnc2 : ¬ HasCloser ('\x7b' :: t) := by
            intro hcl
            rcases HasCloser_cons_elim hcl with ⟨hc, _⟩ | h'
            · exact absurd hc (by decide)
            · exact hnc h'
          rw [removeTokens_of_no_closer hnc2] at htok
          have := HasCloser_of_HasTok htok
          rcases HasCloser_cons_elim this with ⟨hc, _⟩ | h'
          · exact absurd hc (by decide)
          · exact hnc2 h'
    · rename_i hb
      obtain ⟨a, m, b, habs⟩ := htok
      cases a with
      | nil =>
        simp only [List.nil_append, List.cons.injEq] at habs
        obtain ⟨rfl, hout⟩ := habs
        apply hb
        refine ⟨rfl, ?_⟩
        cases rest with
        | nil => simp [removeTokens] at hout
        | cons d t =>
          rw [removeTokens] at hout
          split at hout
          · rename_i hb2
            exact congrArg some hb2.1 ▸ rfl
          · simp only [List.cons.injEq] at hout
            simp [hout.1]
      | cons x a' =>
        simp only [List.cons_append, List.cons.injEq] at habs
        have hnr : '\n' ∉ rest := fun hm => hn (List.mem_cons_of_mem _ hm)
        exact ih rest (by simp) hnr ⟨a', m, b, habs.2⟩

theorem mem_replaceAll {pat rep cs : Str} :
    ∀ x ∈ replaceAll pat rep cs, x ∈ rep ∨ x ∈ cs := by
  induction cs using strRec with
  | ind cs ih =>
  intro x hx
  rw [replaceAll.eq_def] at hx
  split at hx
  · exact Or.inr hx
  · rename_i hp
    split at hx
    · exact Or.inr hx
    · rename_i c rest
      split at hx
      · rcases List.mem_append.mp hx with h1 | h1
        · exact Or.inl h1
        · have hlen : ((c :: rest).drop pat.length).length < (c :: rest).length := by
            have : 0 < pat.length := List.length_pos.mpr hp
            simp only [List.length_drop, List.length_cons]
            omega
          rcases ih _ hlen x h1 with h2 | h2
          · exact Or.inl h2
          · exact Or.inr (List.mem_of_mem_drop h2)
      · rcases List.mem_cons.mp hx with rfl | h1
        · exact Or.inr (List.mem_cons_self _ _)
        · rcases ih rest (by simp) x h1 with h2 | h2
          · exact Or.inl h2
          · exact Or.inr (List.mem_cons_of_mem _ h2)

theorem varsStep_no_newline {s : Str} {kv : String × String}
    (hs : '\n' ∉ s) (hv : '\n' ∉ kv.2.data) : '\n' ∉ varsStep s kv := by
  intro hmem
  rcases mem_replaceAll _ hmem with h | h
  · exact hv h
  · rcases mem_replaceAll _ h with h' | h'
    · exact hv h'
    · exact hs h'

theorem outsStep_no_newline {s : Str} {kv : String × String}
    (hs : '\n' ∉ s) (hv : '\n' ∉ uTrim kv.2.data) : '\n' ∉ outsStep s kv := by
  intro hmem
  rcases mem_replaceAll _ hmem with h | h
  · exact hv h
  · rcases mem_replaceAll _ h with h' | h'
    · exact hv h'
    · exact hs h'

theorem foldl_varsStep_no_newline {vars : List (String × String)} :
    ∀ {s : Str}, '\n' ∉ s → (∀ kv ∈ vars, '\n' ∉ (kv.2 : String).data) →
    '\n' ∉ vars.foldl varsStep s := by
  induction vars with
  | nil => intro s hs _; exact hs
  | cons kv rest ih =>
    intro s hs hv
    exact ih (varsStep_no_newline hs (hv kv (List.mem_cons_self _ _)))
      (fun k hk => hv k (List.mem_cons_of_mem _ hk))

theorem foldl_outsStep_no_newline {outs : List (String × String)} :
    ∀ {s : Str}, '\n' ∉ s → (∀ kv ∈ outs, '\n' ∉ uTrim (kv.2 : String).data) →
    '\n' ∉ outs.foldl outsStep s := by
  induction outs with
  | nil => intro s hs _; exact hs
  | cons kv rest ih =>
    intro s hs hv
    exact ih (outsStep_no_newline hs (hv kv (List.mem_cons_self _ _)))
      (fun k hk => hv k (List.mem_cons_of_mem _ hk))

/-- Sweep guarantee at the `interpolate_command` level, for inputs whose
template and substituted values are newline-free. -/
theorem interpolate_command_no_token (tpl : String) (outs vars : List (String × String))
    (h1 : '\n' ∉ tpl.data)
    (h2 : ∀ kv ∈ vars, '\n' ∉ (kv.2 : String).data)
    (h3 : ∀ kv ∈ outs, '\n' ∉ uTrim (kv.2 : String).data) :
    ¬ HasTok (interpolate_command tpl outs vars).data := by
  have hmid : '\n' ∉ outs.foldl outsStep (vars.foldl varsStep tpl.data) :=
    foldl_outsStep_no_newline (foldl_varsStep_no_newline h1 h2) h3
  exact removeTokens_no_token hmid

/-- Embedding of `parser.rs::TaskDef`.  Field names follow the source. -/
structure TaskDef where
  name : String
  depends_on : List String
  run : String
  retries : Option Nat
  timeout : Option Nat
  backend : Option String
  cache_key : Option String
  continue_on_fail : Option Bool
deriving DecidableEq, Repr

/-- Embedding of `parser.rs::Pipeline`. -/
structure Pipeline where
  name : Option String
  concurrency : Option Nat
  stop_on_fail : Option Bool
  tasks : List TaskDef
deriving DecidableEq, Repr

/-- Error kinds of `validate_pipeline` (the source bails with formatted
strings; the constructors record which bail site fired and its data).
`fuelOut` is an artifact of the fuelled embedding of the recursive DFS and is
proved unreachable for the fuel used by `validate_pipeline`. -/
inductive VErr where
  | duplicateName (n : String)
  | unknownDependency (task dep : String)
  | cycleDetected (n : String)
  | fuelOut
deriving DecidableEq, Repr

/-- First check of `validate_pipeline` (`parser.rs` lines 44-49): a `HashSet`
insert loop failing on the first repeated task name. -/
def checkDupNames : List TaskDef → List String → Except VErr Unit
  | [], _ => .ok ()
  | t :: rest, seen =>
    if t.name ∈ seen then .error (.duplicateName t.name)
    else checkDupNames rest (t.name :: seen)

/-- Inner loop of the second check: all of one task's dependencies must be
declared task names. -/
def checkDepsTask (nameSet : List String) (tname : String) : List String → Except VErr Unit
  | [] => .ok ()
  | d :: rest =>
    if d ∈ nameSet then checkDepsTask nameSet tname rest
    else .error (.unknownDependency tname d)

/-- Second check of `validate_pipeline` (`parser.rs` lines 52-59). -/
def checkDeps (nameSet : List String) : List TaskDef → Except VErr Unit
  | [] => .ok ()
  | t :: rest =>
    match checkDepsTask nameSet t.name t.depends_on with
    | .error e => .error e
    | .ok () => checkDeps nameSet rest

/-- Adjacency map `dep → dependents` as built by both `parser.rs` (lines
62-67) and `executor.rs` (lines 30-39): for every task `t` and every
occurrence of `dep` in `t.depends_on`, `t.name` is pushed onto `adj[dep]`. -/
def adjOf (tasks : List TaskDef) (d : String) : List String :=
  tasks.foldl
    (fun acc t => acc ++ (t.depends_on.filter (fun x => x == d)).map (fun _ => t.name)) []

/-- Pointwise map update, modelling `HashMap::insert` on the DFS colour map. -/
def upd (v : String → Nat) (k : String) (x : Nat) : String → Nat :=
  fun n => if n = k then x else v n

mutual

/-- Three-colour DFS of `parser.rs` lines 70-88 (0 = unvisited, 1 = visiting,
2 = done), with explicit fuel for the recursion; `validate_pipeline` supplies
fuel for which `fuelOut` is unreachable. -/
def dfs (adj : String → List String) (fuel : Nat) (node : String)
    (visited : String → Nat) : Except VErr (String → Nat) :=
  match fuel with
  | 0 => .error .fuelOut
  | fuel + 1 =>
    if visited node = 1 then .error (.cycleDetected node)
    else if visited node = 2 then .ok visited
    else
      match dfsAll adj fuel (adj node) (upd visited node 1) with
      | .error e => .error e
      | .ok v2 => .ok (upd v2 node 2)
termination_by (fuel, 0)

/-- Neighbour loop of the DFS (`for n in nei { dfs(n, adj, visited)? }`). -/
def dfsAll (adj : String → List String) (fuel : Nat) (l : List String)
    (visited : String → Nat) : Except VErr (String → Nat) :=
  match l with
  | [] => .ok visited
  | n :: rest =>
    match dfs adj fuel n visited with
    | .error e => .error e
    | .ok v => dfsAll adj fuel rest v
termination_by (fuel, l.length + 1)

end

/-- Top-level DFS loop of `validate_pipeline` (`parser.rs` lines 90-92):
every task is a DFS root, sharing the colour map. -/
def checkCyclesGo (adj : String → List String) (fuel : Nat) :
    List TaskDef → (String → Nat) → Except VErr Unit
  | [], _ => .ok ()
  | t :: rest, visited =>
    match dfs adj fuel t.name visited with
    | .error e => .error e
    | .ok v => checkCyclesGo adj fuel rest v

/-- Embedding of `parser.rs::validate_pipeline`: duplicate-name check, then
unknown-dependency check, then cycle check, failing fast in that order. -/
def validate_pipeline (p : Pipeline) : Except VErr Unit :=
  match checkDupNames p.tasks [] with
  | .error e => .error e
  | .ok () =>
    match checkDeps (p.tasks.map (fun t => t.name)) p.tasks with
    | .error e => .error e
    | .ok () =>
      checkCyclesGo (adjOf p.tasks) (p.tasks.length + 1) p.tasks (fun _ => 0)

/-- Spec-level predicate: task names are pairwise distinct. -/
def UniqueNames (p : Pipeline) : Prop :=
  (p.tasks.map (fun t => t.name)).Nodup

/-- Spec-level predicate: every dependency refers to a declared task. -/
def DepsExist (p : Pipeline) : Prop :=
  ∀ t ∈ p.tasks, ∀ d ∈ t.depends_on, d ∈ p.tasks.map (fun t => t.name)

/-- Edge relation of the dependency graph as stored by the source:
`dep → dependent`. -/
def adjRel (tasks : List TaskDef) (a b : String) : Prop :=
  b ∈ adjOf tasks a

/-- Spec-level predicate: the dependency graph has no (directed) cycle. -/
def Acyclic (tasks : List TaskDef) : Prop :=
  ¬ ∃ c, Relation.TransGen (adjRel tasks) c c

theorem mem_adjOf {tasks : List TaskDef} {a b : String} :
    b ∈ adjOf tasks a ↔ ∃ t ∈ tasks, t.name = b ∧ a ∈ t.depends_on := by
  have aux : ∀ (l : List TaskDef) (acc : List String),
      b ∈ l.foldl
        (fun acc t => acc ++ (t.depends_on.filter (fun x => x == a)).map (fun _ => t.name))
        acc ↔
      b ∈ acc ∨ ∃ t ∈ l, t.name = b ∧ a ∈ t.depends_on := by
    intro l
    induction l with
    | nil => simp
    | cons t rest ih =>
      intro acc
      rw [List.foldl_cons, ih]
      constructor
      · rintro (hacc | h)
        · rcases List.mem_append.mp hacc with h1 | h1
          · exact Or.inl h1
          · obtain ⟨y, hy, hyb⟩ := List.mem_map.mp h1
            have := List.mem_filter.mp hy
            refine Or.inr ⟨t, List.mem_cons_self _ _, hyb, ?_⟩
            have : y = a := by simpa using this.2
            exact this ▸ this.symm ▸ (List.mem_filter.mp hy).1
        · obtain ⟨u, hu, h2⟩ := h
          exact Or.inr ⟨u, List.mem_cons_of_mem _ hu, h2⟩
      · rintro (hacc | ⟨u, hu, hub, hau⟩)
        · exact Or.inl (List.mem_append.mpr (Or.inl hacc))
        · rcases List.mem_cons.mp hu with rfl | hu'
          · refine Or.inl (List.mem_append.mpr (Or.inr ?_))
            exact List.mem_map.mpr ⟨a, List.mem_filter.mpr ⟨hau, by simp⟩, hub⟩
          · exact Or.inr ⟨u, hu', hub, hau⟩
  simpa only [List.not_mem_nil, false_or] using aux tasks []

theorem adjOf_mem_names {tasks : List TaskDef} {a b : String}
    (h : b ∈ adjOf tasks a) : b ∈ tasks.map (fun t => t.name) := by
  obtain ⟨t, ht, rfl, _⟩ := mem_adjOf.mp h
  exact List.mem_map.mpr ⟨t, ht, rfl⟩

/-- Number of still-unvisited nodes among a carrier list, used to show the
fuel chosen by `validate_pipeline` suffices. -/
def whiteCount (S : List String) (v : String → Nat) : Nat :=
  (S.filter (fun x => v x == 0)).length

theorem whiteCount_le_length (S : List String) (v : String → Nat) :
    whiteCount S v ≤ S.length :=
  List.length_filter_le _ _

theorem whiteCount_mono {S : List String} {v v' : String → Nat}
    (h : ∀ x, v x ≤ v' x) : whiteCount S v' ≤ whiteCount S v := by
  induction S with
  | nil => simp [whiteCount]
  | cons s S ih =>
    have himp : v' s = 0 → v s = 0 := fun hz => Nat.le_zero.mp (hz ▸ h s)
    simp only [whiteCount, List.filter_cons] at ih ⊢
    by_cases h1 : v' s = 0
    · have h2 := himp h1
      simp only [h1, h2, beq_self_eq_true, if_true, List.length_cons]
      omega
    · by_cases h2 : v s = 0
      · simp only [show (v' s == 0) = false by simpa using h1, h2,
          beq_self_eq_true, if_true, Bool.false_eq_true, if_false, List.length_cons]
        omega
      · simp only [show (v' s == 0) = false by simpa using h1,
          show (v s == 0) = false by simpa using h2, Bool.false_eq_true, if_false]
        exact ih

theorem whiteCount_upd_of_white {S : List String} {v : String → Nat}
    {node : String} {m : Nat} (hS : S.Nodup) (hmem : node ∈ S)
    (hw : v node = 0) (hm : m ≠ 0) :
    whiteCount S (upd v node m) + 1 = whiteCount S v := by
  induction S with
  | nil => cases hmem
  | cons s S ih =>
    have hnd := List.nodup_cons.mp hS
    simp only [whiteCount, List.filter_cons] at ih ⊢
    rcases List.mem_cons.mp hmem with rfl | hmem'
    · have hsame : List.filter (fun x => upd v node m x == 0) S =
          List.filter (fun x => v x == 0) S := by
        apply List.filter_congr
        intro x hx
        have hx' : x ≠ node := fun h => hnd.1 (h ▸ hx)
        simp [upd, hx']
      have hcond1 : (upd v node m node == 0) = false := by simp [upd, hm]
      simp only [hcond1, hw, beq_self_eq_true, if_true, Bool.false_eq_true,
        if_false, hsame, List.length_cons]
    · have ih' := ih hnd.2 hmem'
      by_cases hs : s = node
    
      · exact absurd (hs ▸ hmem') hnd.1
      · have hcond : upd v node m s = v s := by simp [upd, hs]
        rw [hcond]
        by_cases h0 : v s = 0
        · simp only [h0, beq_self_eq_true, if_true, List.length_cons]
          omega
        · simp only [show (v s == 0) = false by simpa using h0,
            Bool.false_eq_true, if_false]
          omega

theorem dfs_zero {adj node v} : dfs adj 0 node v = .error .fuelOut := by
  rw [dfs]

theorem dfs_succ {adj f node v} :
    dfs adj (f + 1) node v =
      if v node = 1 then .error (.cycleDetected node)
      else if v node = 2 then .ok v
      else
        match dfsAll adj f (adj node) (upd v node 1) with
        | .error e => .error e
        | .ok v2 => .ok (upd v2 node 2) := by
  rw [dfs]

theorem dfsAll_nil {adj f v} : dfsAll adj f [] v = .ok v := by
  rw [dfsAll]

theorem dfsAll_cons {adj f n rest v} :
    dfsAll adj f (n :: rest) v =
      match dfs adj f n v with
      | .error e => .error e
      | .ok v1 => dfsAll adj f rest v1 := by
  rw [dfsAll]

/-- Edge relation read off an adjacency function. -/
def nbr (adj : String → List String) (a b : String) : Prop := b ∈ adj a

/-- Invariant: every grey node has a path to the current node. -/
def GP (adj : String → List String) (v : String → Nat) (node : String) : Prop :=
  ∀ g, v g = 1 → Relation.TransGen (nbr adj) g node

/-- Invariant: every grey node has a path to each pending neighbour. -/
def GPl (adj : String → List String) (v : String → Nat) (l : List String) : Prop :=
  ∀ g, v g = 1 → ∀ n ∈ l, Relation.TransGen (nbr adj) g n

/-- Invariant: no node on a cycle is marked done. -/
def Inv2 (adj : String → List String) (v : String → Nat) : Prop :=
  ∀ c, Relation.TransGen (nbr adj) c c → v c ≠ 2

theorem dfsFacts : ∀ fuel : Nat,
    (∀ (adj : String → List String) node (v v' : String → Nat),
      (∀ x, v x ≤ 2) → dfs adj fuel node v = .ok v' →
      (∀ x, v x ≤ v' x) ∧ (∀ x, v' x ≤ 2) ∧ (∀ x, (v' x = 1 ↔ v x = 1)) ∧
        v' node = 2) ∧
    (∀ (adj : String → List String) (l : List String) (v v' : String → Nat),
      (∀ x, v x ≤ 2) → dfsAll adj fuel l v = .ok v' →
      (∀ x, v x ≤ v' x) ∧ (∀ x, v' x ≤ 2) ∧ (∀ x, (v' x = 1 ↔ v x = 1)) ∧
        (∀ n ∈ l, v' n = 2)) := by
  intro fuel
  induction fuel using Nat.strong_induction_on with
  | _ fuel ih =>
  have hdfs : ∀ (adj : String → List String) node (v v' : String → Nat),
      (∀ x, v x ≤ 2) → dfs adj fuel node v = .ok v' →
      (∀ x, v x ≤ v' x) ∧ (∀ x, v' x ≤ 2) ∧ (∀ x, (v' x = 1 ↔ v x = 1)) ∧
        v' node = 2 := by
    intro adj node v v' hb h
    cases fuel with
    | zero => rw [dfs_zero] at h; cases h
    | succ f =>
      rw [dfs_succ] at h
      split at h
      · cases h
      · rename_i h1
        split at h
        · rename_i h2
          cases h
          exact ⟨fun x => Nat.le_refl _, hb, fun x => Iff.rfl, h2⟩
        · rename_i h2
          have hv0 : v node = 0 := by
            have := hb node
            omega
          cases hda : dfsAll adj f (adj node) (upd v node 1) with
          | error e => rw [hda] at h; cases h
          | ok v2 =>
            rw [hda] at h
            cases h
            have hb1 : ∀ x, upd v node 1 x ≤ 2 := by
              intro x
              by_cases hx : x = node <;> simp [upd, hx] <;> exact hb x
            obtain ⟨hm, hbd, hge, _⟩ :=
              (ih f (Nat.lt_succ_self f)).2 adj (adj node) (upd v node 1) v2 hb1 hda
            refine ⟨?_, ?_, ?_, by simp [upd]⟩
            · intro x
              by_cases hx : x = node
              · subst hx; simp [upd, hv0]
              · have := hm x
                simp only [upd, if_neg hx] at this ⊢
                exact this
            · intro x
              by_cases hx : x = node
              · subst hx; simp [upd]
              · simp only [upd, if_neg hx]
                exact hbd x
            · intro x
              by_cases hx : x = node
              · subst hx
                simp [upd, hv0]
              · have := hge x
                simp only [upd, if_neg hx] at this ⊢
                exact this
  refine ⟨hdfs, ?_⟩
  intro adj l
  induction l with
  | nil =>
    intro v v' hb h
    rw [dfsAll_nil] at h
    cases h
    exact ⟨fun x => Nat.le_refl _, hb, fun x => Iff.rfl, by simp⟩
  | cons n rest ihl =>
    intro v v' hb h
    rw [dfsAll_cons] at h
    cases hd : dfs adj fuel n v with
    | error e => rw [hd] at h; cases h
    | ok v1 =>
      rw [hd] at h
      obtain ⟨hm1, hb1, hge1, hdn⟩ := hdfs adj n v v1 hb hd
      obtain ⟨hm2, hb2, hge2, hdr⟩ := ihl v1 v' hb1 h
      refine ⟨fun x => Nat.le_trans (hm1 x) (hm2 x), hb2,
        fun x => (hge2 x).trans (hge1 x), ?_⟩
      intro u hu
      rcases List.mem_cons.mp hu with rfl | hu'
      · have := hm2 u
        have := hb2 u
        omega
      · exact hdr u hu'

theorem dfsSound : ∀ fuel : Nat,
    (∀ (adj : String → List String) node (v : String → Nat) m,
      (∀ x, v x ≤ 2) → GP adj v node →
      dfs adj fuel node v = .error (.cycleDetected m) →
      ∃ c, Relation.TransGen (nbr adj) c c) ∧
    (∀ (adj : String → List String) (l : List String) (v : String → Nat) m,
      (∀ x, v x ≤ 2) → GPl adj v l →
      dfsAll adj fuel l v = .error (.cycleDetected m) →
      ∃ c, Relation.TransGen (nbr adj) c c) := by
  intro fuel
  induction fuel using Nat.strong_induction_on with
  | _ fuel ih =>
  have hdfs : ∀ (adj : String → List String) node (v : String → Nat) m,
      (∀ x, v x ≤ 2) → GP adj v node →
      dfs adj fuel node v = .error (.cycleDetected m) →
      ∃ c, Relation.TransGen (nbr adj) c c := by
    intro adj node v m hb hgp h
    cases fuel with
    | zero => rw [dfs_zero] at h; cases h
    | succ f =>
      rw [dfs_succ] at h
      split at h
      · rename_i h1
        exact ⟨node, hgp node h1⟩
      · split at h
        · cases h
        · cases hda : dfsAll adj f (adj node) (upd v node 1) with
          | ok v2 => rw [hda] at h; cases h
          | error e =>
            rw [hda] at h
            cases h
            have hb1 : ∀ x, upd v node 1 x ≤ 2 := by
              intro x
              by_cases hx : x = node <;> simp [upd, hx] <;> exact hb x
            have hgpl : GPl adj (upd v node 1) (adj node) := by
              intro g hg n hn
              by_cases hgx : g = node
              · subst hgx
                exact Relation.TransGen.single hn
              · simp only [upd, if_neg hgx] at hg
                exact Relation.TransGen.tail (hgp g hg) hn
            exact (ih f (Nat.lt_succ_self f)).2 adj (adj node) (upd v node 1) m
              hb1 hgpl hda
  refine ⟨hdfs, ?_⟩
  intro adj l
  induction l with
  | nil =>
    intro v m hb hgpl h
    rw [dfsAll_nil] at h
    cases h
  | cons n rest ihl =>
    intro v m hb hgpl h
    rw [dfsAll_cons] at h
    cases hd : dfs adj fuel n v with
    | error e =>
      rw [hd] at h
      cases h
      exact hdfs adj n v m hb
        (fun g hg => hgpl g hg n (List.mem_cons_self _ _)) hd
    | ok v1 =>
      rw [hd] at h
      obtain ⟨_, hb1, hge1, _⟩ := (dfsFacts fuel).1 adj n v v1 hb hd
      have hgpl1 : GPl adj v1 rest := by
        intro g hg n' hn'
        exact hgpl g ((hge1 g).mp hg) n' (List.mem_cons_of_mem _ hn')
      exact ihl v1 m hb1 hgpl1 h

theorem dfsFuel : ∀ fuel : Nat,
    (∀ (adj : String → List String) (S : List String) node (v : String → Nat),
      S.Nodup → (∀ x y, y ∈ adj x → y ∈ S) → node ∈ S → (∀ x, v x ≤ 2) →
      whiteCount S v < fuel → dfs adj fuel node v ≠ .error .fuelOut) ∧
    (∀ (adj : String → List String) (S : List String) (l : List String)
      (v : String → Nat),
      S.Nodup → (∀ x y, y ∈ adj x → y ∈ S) → (∀ n ∈ l, n ∈ S) → (∀ x, v x ≤ 2) →
      whiteCount S v < fuel → dfsAll adj fuel l v ≠ .error .fuelOut) := by
  intro fuel
  induction fuel using Nat.strong_induction_on with
  | _ fuel ih =>
  have hdfs : ∀ (adj : String → List String) (S : List String) node
      (v : String → Nat),
      S.Nodup → (∀ x y, y ∈ adj x → y ∈ S) → node ∈ S → (∀ x, v x ≤ 2) →
      whiteCount S v < fuel → dfs adj fuel node v ≠ .error .fuelOut := by
    intro adj S node v hS hcl hmem hb hwc h
    cases fuel with
    | zero => omega
    | succ f =>
      rw [dfs_succ] at h
      split at h
      · cases h
      · split at h
        · cases h
        · rename_i h1 h2
          have hv0 : v node = 0 := by
            have := hb node
            omega
          have hb1 : ∀ x, upd v node 1 x ≤ 2 := by
            intro x
            by_cases hx : x = node <;> simp [upd, hx] <;> exact hb x
          have hwc1 : whiteCount S (upd v node 1) < f := by
            have := @whiteCount_upd_of_white S v node 1 hS hmem hv0 (by omega)
            omega
          cases hda : dfsAll adj f (adj node) (upd v node 1) with
          | ok v2 => rw [hda] at h; cases h
          | error e =>
            rw [hda] at h
            cases h
            exact (ih f (Nat.lt_succ_self f)).2 adj S (adj node) (upd v node 1)
              hS hcl (fun n hn => hcl node n hn) hb1 hwc1 hda
  refine ⟨hdfs, ?_⟩
  intro adj S l
  induction l with
  | nil =>
    intro v _ _ _ _ _ h
    rw [dfsAll_nil] at h
    cases h
  | cons n rest ihl =>
    intro v hS hcl hlm hb hwc h
    rw [dfsAll_cons] at h
    cases hd : dfs adj fuel n v with
    | error e =>
      rw [hd] at h
      cases h
      exact hdfs adj S n v hS hcl (hlm n (List.mem_cons_self _ _)) hb hwc hd
    | ok v1 =>
      rw [hd] at h
      obtain ⟨hm1, hb1, _, _⟩ := (dfsFacts fuel).1 adj n v v1 hb hd
      have hwc1 : whiteCount S v1 < fuel :=
        Nat.lt_of_le_of_lt (whiteCount_mono hm1) hwc
      exact ihl v1 hS hcl (fun u hu => hlm u (List.mem_cons_of_mem _ hu))
        hb1 hwc1 h

theorem dfsNC : ∀ fuel : Nat,
    (∀ (adj : String → List String) node (v v' : String → Nat),
      (∀ x, v x ≤ 2) → GP adj v node → Inv2 adj v →
      dfs adj fuel node v = .ok v' → Inv2 adj v') ∧
    (∀ (adj : String → List String) (l : List String) (v v' : String → Nat),
      (∀ x, v x ≤ 2) → GPl adj v l → Inv2 adj v →
      dfsAll adj fuel l v = .ok v' → Inv2 adj v') := by
  intro fuel
  induction fuel using Nat.strong_induction_on with
  | _ fuel ih =>
  have hdfs : ∀ (adj : String → List String) node (v v' : String → Nat),
      (∀ x, v x ≤ 2) → GP adj v node → Inv2 adj v →
      dfs adj fuel node v = .ok v' → Inv2 adj v' := by
    intro adj node v v' hb hgp hi h
    cases fuel with
    | zero => rw [dfs_zero] at h; cases h
    | succ f =>
      rw [dfs_succ] at h
      split at h
      · cases h
      · split at h
        · cases h
          exact hi
        · rename_i h1 h2
          have hv0 : v node = 0 := by
            have := hb node
            omega
          cases hda : dfsAll adj f (adj node) (upd v node 1) with
          | error e => rw [hda] at h; cases h
          | ok v2 =>
            rw [hda] at h
            cases h
            have hb1 : ∀ x, upd v node 1 x ≤ 2 := by
              intro x
              by_cases hx : x = node <;> simp [upd, hx] <;> exact hb x
            have hgpl : GPl adj (upd v node 1) (adj node) := by
              intro g hg n hn
              by_cases hgx : g = node
              · subst hgx
                exact Relation.TransGen.single hn
              · simp only [upd, if_neg hgx] at hg
                exact Relation.TransGen.tail (hgp g hg) hn
            have hi1 : Inv2 adj (upd v node 1) := by
              intro c hc
              by_cases hcx : c = node
              · subst hcx; simp [upd]
              · simp only [upd, if_neg hcx]
                exact hi c hc
            have hi2 := (ih f (Nat.lt_succ_self f)).2 adj (adj node)
              (upd v node 1) v2 hb1 hgpl hi1 hda
            obtain ⟨_, _, _, hnd⟩ := (dfsFacts f).2 adj (adj node)
              (upd v node 1) v2 hb1 hda
            intro c hc
            by_cases hcx : c = node
            · subst hcx
              obtain ⟨y, hy, hyr⟩ := Relation.TransGen.head'_iff.mp hc
              have hcyc : Relation.TransGen (nbr adj) y y :=
                Relation.TransGen.tail' hyr hy
              have := hi2 y hcyc
              have := hnd y hy
              simp only [upd]
              intro habs
              omega
            · simp only [upd, if_neg hcx]
              exact hi2 c hc
  refine ⟨hdfs, ?_⟩
  intro adj l
  induction l with
  | nil =>
    intro v v' _ _ hi h
    rw [dfsAll_nil] at h
    cases h
    exact hi
  | cons n rest ihl =>
    intro v v' hb hgpl hi h
    rw [dfsAll_cons] at h
    cases hd : dfs adj fuel n v with
    | error e => rw [hd] at h; cases h
    | ok v1 =>
      rw [hd] at h
      obtain ⟨_, hb1, hge1, _⟩ := (dfsFacts fuel).1 adj n v v1 hb hd
      have hi1 := hdfs adj n v v1 hb
        (fun g hg => hgpl g hg n (List.mem_cons_self _ _)) hi hd
      have hgpl1 : GPl adj v1 rest := fun g hg n' hn' =>
        hgpl g ((hge1 g).mp hg) n' (List.mem_cons_of_mem _ hn')
      exact ihl v1 v' hb1 hgpl1 hi1 h

theorem dfsErrShape : ∀ fuel : Nat,
    (∀ (adj : String → List String) node (v : String → Nat) e,
      dfs adj fuel node v = .error e →
      (∃ m, e = .cycleDetected m) ∨ e = .fuelOut) ∧
    (∀ (adj : String → List String) (l : List String) (v : String → Nat) e,
      dfsAll adj fuel l v = .error e →
      (∃ m, e = .cycleDetected m) ∨ e = .fuelOut) := by
  intro fuel
  induction fuel using Nat.strong_induction_on with
  | _ fuel ih =>
  have hdfs : ∀ (adj : String → List String) node (v : String → Nat) e,
      dfs adj fuel node v = .error e →
      (∃ m, e = .cycleDetected m) ∨ e = .fuelOut := by
    intro adj node v e h
    cases fuel with
    | zero =>
      rw [dfs_zero] at h
      cases h
      exact Or.inr rfl
    | succ f =>
      rw [dfs_succ] at h
      split at h
      · cases h
        exact Or.inl ⟨node, rfl⟩
      · split at h
        · cases h
        · cases hda : dfsAll adj f (adj node) (upd v node 1) with
          | ok v2 => rw [hda] at h; cases h
          | error e' =>
            rw [hda] at h
            cases h
            exact (ih f (Nat.lt_succ_self f)).2 adj (adj node) _ e hda
  refine ⟨hdfs, ?_⟩
  intro adj l
  induction l with
  | nil =>
    intro v e h
    rw [dfsAll_nil] at h
    cases h
  | cons n rest ihl =>
    intro v e h
    rw [dfsAll_cons] at h
    cases hd : dfs adj fuel n v with
    | error e' =>
      rw [hd] at h
      cases h
      exact hdfs adj n v e hd
    | ok v1 =>
      rw [hd] at h
      exact ihl v1 e h

theorem ccgSound {adj fuel} : ∀ (l : List TaskDef) (v : String → Nat) m,
    (∀ x, v x ≤ 2) → (∀ g, v g ≠ 1) →
    checkCyclesGo adj fuel l v = .error (.cycleDetected m) →
    ∃ c, Relation.TransGen (nbr adj) c c := by
  intro l
  induction l with
  | nil => intro v m _ _ h; simp [checkCyclesGo] at h
  | cons t rest ih =>
    intro v m hb hng h
    rw [checkCyclesGo] at h
    cases hd : dfs adj fuel t.name v with
    | error e =>
      rw [hd] at h
      cases h
      exact (dfsSound fuel).1 adj t.name v m hb
        (fun g hg => absurd hg (hng g)) hd
    | ok v1 =>
      rw [hd] at h
      obtain ⟨_, hb1, hge1, _⟩ := (dfsFacts fuel).1 adj t.name v v1 hb hd
      exact ih v1 m hb1 (fun g hg => hng g ((hge1 g).mp hg)) h

theorem ccgFuel {adj fuel} {S : List String} : ∀ (l : List TaskDef) (v : String → Nat),
    S.Nodup → (∀ x y, y ∈ adj x → y ∈ S) → (∀ t ∈ l, t.name ∈ S) →
    (∀ x, v x ≤ 2) → whiteCount S v < fuel →
    checkCyclesGo adj fuel l v ≠ .error .fuelOut := by
  intro l
  induction l with
  | nil => intro v _ _ _ _ _ h; simp [checkCyclesGo] at h
  | cons t rest ih =>
    intro v hS hcl hlm hb hwc h
    rw [checkCyclesGo] at h
    cases hd : dfs adj fuel t.name v with
    | error e =>
      rw [hd] at h
      cases h
      exact (dfsFuel fuel).1 adj S t.name v hS hcl
        (hlm t (List.mem_cons_self _ _)) hb hwc hd
    | ok v1 =>
      rw [hd] at h
      obtain ⟨hm1, hb1, _, _⟩ := (dfsFacts fuel).1 adj t.name v v1 hb hd
      exact ih v1 hS hcl (fun u hu => hlm u (List.mem_cons_of_mem _ hu)) hb1
        (Nat.lt_of_le_of_lt (whiteCount_mono hm1) hwc) h

theorem ccgComplete {adj fuel} : ∀ (l : List TaskDef) (v : String → Nat),
    (∀ x, v x ≤ 2) → (∀ g, v g ≠ 1) → Inv2 adj v →
    checkCyclesGo adj fuel l v = .ok () →
    ∀ c, Relation.TransGen (nbr adj) c c →
    c ∈ l.map (fun t => t.name) → False := by
  intro l
  induction l with
  | nil => intro v _ _ _ _ c _ hc; simp at hc
  | cons t rest ih =>
    intro v hb hng hi h c hcyc hc
    rw [checkCyclesGo] at h
    cases hd : dfs adj fuel t.name v with
    | error e => rw [hd] at h; cases h
    | ok v1 =>
      rw [hd] at h
      obtain ⟨_, hb1, hge1, hdone⟩ := (dfsFacts fuel).1 adj t.name v v1 hb hd
      have hi1 := (dfsNC fuel).1 adj t.name v v1 hb
        (fun g hg => absurd hg (hng g)) hi hd
      rw [List.map_cons] at hc
      rcases List.mem_cons.mp hc with rfl | hc'
      · exact hi1 _ hcyc hdone
      · exact ih v1 hb1 (fun g hg => hng g ((hge1 g).mp hg)) hi1 h c hcyc hc'

theorem ccgErrShape {adj fuel} : ∀ (l : List TaskDef) (v : String → Nat) e,
    checkCyclesGo adj fuel l v = .error e →
    (∃ m, e = .cycleDetected m) ∨ e = .fuelOut := by
  intro l
  induction l with
  | nil => intro v e h; simp [checkCyclesGo] at h
  | cons t rest ih =>
    intro v e h
    rw [checkCyclesGo] at h
    cases hd : dfs adj fuel t.name v with
    | error e' =>
      rw [hd] at h
      cases h
      exact (dfsErrShape fuel).1 adj t.name v e hd
    | ok v1 =>
      rw [hd] at h
      exact ih v1 e h

theorem checkDupNames_ok_iff : ∀ (l : List TaskDef) (seen : List String),
    checkDupNames l seen = .ok () ↔
    (l.map (fun t => t.name)).Nodup ∧ ∀ t ∈ l, t.name ∉ seen := by
  intro l
  induction l with
  | nil => intro seen; simp [checkDupNames]
  | cons t rest ih =>
    intro seen
    rw [checkDupNames]
    by_cases h : t.name ∈ seen
    · simp only [if_pos h]
      constructor
      · intro habs; cases habs
      · rintro ⟨_, hall⟩
        exact absurd h (hall t (List.mem_cons_self _ _))
    · simp only [if_neg h, ih]
      constructor
      · rintro ⟨hnd, hall⟩
        refine ⟨List.nodup_cons.mpr ⟨?_, hnd⟩, ?_⟩
        · intro habs
          obtain ⟨u, hu, hun⟩ := List.mem_map.mp habs
          exact (hall u hu) (by simp [hun])
        · intro u hu
          rcases List.mem_cons.mp hu with rfl | hu'
          · exact h
          · exact fun hm => (hall u hu') (List.mem_cons_of_mem _ hm)
      · rintro ⟨hnd, hall⟩
        rw [List.map_cons] at hnd
        have hnd' := List.nodup_cons.mp hnd
        refine ⟨hnd'.2, ?_⟩
        intro u hu hm
        rcases List.mem_cons.mp hm with he | hm'
        · exact hnd'.1 (he ▸ List.mem_map.mpr ⟨u, hu, rfl⟩)
        · exact (hall u (List.mem_cons_of_mem _ hu)) hm'

theorem checkDupNames_cases : ∀ (l : List TaskDef) (seen : List String),
    checkDupNames l seen = .ok () ∨
    ∃ n, checkDupNames l seen = .error (.duplicateName n) := by
  intro l
  induction l with
  | nil => intro seen; exact Or.inl rfl
  | cons t rest ih =>
    intro seen
    rw [checkDupNames]
    by_cases h : t.name ∈ seen
    · simp only [if_pos h]
      exact Or.inr ⟨t.name, rfl⟩
    · simp only [if_neg h]
      exact ih (t.name :: seen)

theorem checkDepsTask_ok_iff : ∀ (deps : List String) (ns : List String) (tn : String),
    checkDepsTask ns tn deps = .ok () ↔ ∀ d ∈ deps, d ∈ ns := by
  intro deps
  induction deps with
  | nil => intro ns tn; simp [checkDepsTask]
  | cons d rest ih =>
    intro ns tn
    rw [checkDepsTask]
    by_cases h : d ∈ ns
    · simp only [if_pos h, ih]
      constructor
      · intro hall u hu
        rcases List.mem_cons.mp hu with rfl | hu'
        · exact h
        · exact hall u hu'
      · intro hall u hu
        exact hall u (List.mem_cons_of_mem _ hu)
    · simp only [if_neg h]
      constructor
      · intro habs; cases habs
      · intro hall
        exact absurd (hall d (List.mem_cons_self _ _)) h

theorem checkDepsTask_cases : ∀ (deps ns : List String) (tn : String),
    checkDepsTask ns tn deps = .ok () ∨
    ∃ d, checkDepsTask ns tn deps = .error (.unknownDependency tn d) := by
  intro deps
  induction deps with
  | nil => intro ns tn; exact Or.inl rfl
  | cons d rest ih =>
    intro ns tn
    rw [checkDepsTask]
    by_cases h : d ∈ ns
    · simp only [if_pos h]
      exact ih ns tn
    · simp only [if_neg h]
      exact Or.inr ⟨d, rfl⟩

theorem checkDeps_ok_iff : ∀ (l : List TaskDef) (ns : List String),
    checkDeps ns l = .ok () ↔ ∀ t ∈ l, ∀ d ∈ t.depends_on, d ∈ ns := by
  intro l
  induction l with
  | nil => intro ns; simp [checkDeps]
  | cons t rest ih =>
    intro ns
    rw [checkDeps]
    cases hct : checkDepsTask ns t.name t.depends_on with
    | error e =>
      simp only
      constructor
      · intro habs; cases habs
      · intro hall
        have := (checkDepsTask_ok_iff t.depends_on ns t.name).mpr
          (hall t (List.mem_cons_self _ _))
        rw [this] at hct
        cases hct
    | ok u =>
      cases u
      simp only [ih]
      constructor
      · intro hall u hu
        rcases List.mem_cons.mp hu with rfl | hu'
        · exact (checkDepsTask_ok_iff u.depends_on ns u.name).mp hct
        · exact hall u hu'
      · intro hall u hu
        exact hall u (List.mem_cons_of_mem _ hu)

theorem checkDeps_cases : ∀ (l : List TaskDef) (ns : List String),
    checkDeps ns l = .ok () ∨
    ∃ t d, checkDeps ns l = .error (.unknownDependency t d) := by
  intro l
  induction l with
  | nil => intro ns; exact Or.inl rfl
  | cons t rest ih =>
    intro ns
    rw [checkDeps]
    cases hct : checkDepsTask ns t.name t.depends_on with
    | error e =>
      rcases checkDepsTask_cases t.depends_on ns t.name with hok | ⟨d, hd⟩
      · rw [hok] at hct; cases hct
      · rw [hd] at hct
        cases hct
        exact Or.inr ⟨t.name, d, rfl⟩
    | ok u =>
      cases u
      exact ih ns

theorem checkCycles_ok_iff (p : Pipeline) (hu : UniqueNames p) :
    checkCyclesGo (adjOf p.tasks) (p.tasks.length + 1) p.tasks (fun _ => 0) =
      .ok () ↔ Acyclic p.tasks := by
  constructor
  · rintro h ⟨c, hcyc⟩
    obtain ⟨b, hrb, hbc⟩ := Relation.TransGen.tail'_iff.mp hcyc
    have hcn : c ∈ p.tasks.map (fun t => t.name) := adjOf_mem_names hbc
    exact ccgComplete p.tasks (fun _ => 0) (fun x => Nat.zero_le 2)
      (fun g => by simp) (fun c _ => by simp) h c hcyc hcn
  · intro hac
    cases hres : checkCyclesGo (adjOf p.tasks) (p.tasks.length + 1) p.tasks
        (fun _ => 0) with
    | ok u => cases u; rfl
    | error e =>
      rcases ccgErrShape p.tasks _ e hres with ⟨m, rfl⟩ | rfl
      · exact absurd (ccgSound p.tasks (fun _ => 0) m (fun x => Nat.zero_le 2)
          (fun g => by simp) hres) hac
      · refine absurd hres (@ccgFuel (adjOf p.tasks) (p.tasks.length + 1)
          (p.tasks.map (fun t => t.name)) p.tasks (fun _ => 0)
          (show (p.tasks.map (fun t => t.name)).Nodup from hu) ?_ ?_
          (fun x => Nat.zero_le 2) ?_)
        · intro x y hy
          exact adjOf_mem_names hy
        · intro t ht
          exact List.mem_map.mpr ⟨t, ht, rfl⟩
        · have h1 := whiteCount_le_length (p.tasks.map (fun t => t.name))
            (fun _ => 0)
          rw [List.length_map] at h1
          omega

theorem validate_dup_phase {p : Pipeline} :
    checkDupNames p.tasks [] = .ok () ↔ UniqueNames p := by
  rw [checkDupNames_ok_iff]
  simp [UniqueNames]

theorem validate_deps_phase {p : Pipeline} :
    checkDeps (p.tasks.map (fun t => t.name)) p.tasks = .ok () ↔ DepsExist p := by
  rw [checkDeps_ok_iff]
  rfl

/-- Exit status of a finished child (`std::process::ExitStatus`): `success`
models `status.success()`, `code` models `status.code()`. -/
structure ExitSt where
  success : Bool
  code : Option Int
deriving DecidableEq, Repr

/-- Names of all tasks of a pipeline, in declaration order. -/
def taskNames (tasks : List TaskDef) : List String := tasks.map (fun t => t.name)

/-- Initial indegree map of `executor.rs` lines 28-39: every task has an
entry; each dependency occurrence adds one. -/
def indeg0 (tasks : List TaskDef) (n : String) : Nat :=
  tasks.foldl (fun acc t => if t.name = n then acc + t.depends_on.length else acc) 0

/-- Dependency list of the (first) task with a given name. -/
def depsOf (tasks : List TaskDef) (n : String) : List String :=
  match tasks.find? (fun t => t.name == n) with
  | some t => t.depends_on
  | none => []

/-- Embedding of `executor.rs::sanitize_filename`: illegal Windows filename
characters become underscores. -/
def sanitize_filename (name : String) : String :=
  ⟨name.data.map (fun c =>
    if c ∈ ['<', '>', '/', '\\', '|', '?', '*', ':', '"'] then '_' else c)⟩

/-- Debug rendering of `Option<i32>` as interpolated by `format!("{:?}", …)`
in the log artifact. -/
def optDebug : Option Int → String
  | none => "None"
  | some n => "Some(" ++ toString n ++ ")"

/-- Body of the `.log` artifact (`executor.rs` lines 105-106). -/
def logSummary (task cmd : String) (code : Option Int) (stdout stderr : String) :
    String :=
  "Task: " ++ task ++ "\nCmd: " ++ cmd ++ "\nExit: " ++ optDebug code ++
    "\nStdout:\n" ++ stdout ++ "\nStderr:\n" ++ stderr ++ "\n"

/-- Body of the `.json` manifest (`executor.rs` lines 109-115).  JSON string
escaping is elided: no claim depends on the manifest's byte content, only on
the artifact being written under its name. -/
def jsonManifest (task cmd : String) (code : Option Int) (iso : String) : String :=
  "\x7b\"command\":\"" ++ cmd ++ "\",\"exit_code\":" ++
    (match code with | none => "null" | some n => toString n) ++
    ",\"task\":\"" ++ task ++ "\",\"timestamp\":\"" ++ iso ++ "\"\x7d"

/-- Modelled from the spec: `serde_yaml::to_string` for a `Pipeline` value
(library code, absent from `src/`).  A canonical rendering, determined only
by the parsed value; `executor.rs` line 25 writes this rendering — not the
original input bytes — to `pipeline.yaml`. -/
def persistedYaml (p : Pipeline) : String :=
  "name: " ++ (match p.name with | none => "null" | some v => v) ++
  "\nconcurrency: " ++ (match p.concurrency with | none => "null" | some v => toString v) ++
  "\nstop_on_fail: " ++ (match p.stop_on_fail with | none => "null" | some v => toString v) ++
  "\ntasks:" ++
  String.join (p.tasks.map (fun t =>
    "\n- name: " ++ t.name ++
    "\n  depends_on: [" ++ String.intercalate ", " t.depends_on ++ "]" ++
    "\n  run: " ++ t.run)) ++ "\n"

/-- Driver-loop state of `run_pipeline`: the indegree map, the shared
`outputs`/`vars` maps, the set of in-flight futures (with the interpolated
command once the runner has snapshotted), everything ever dispatched, the
`ordered_results` list, the artifacts written to the run directory, and
whether the run has aborted. -/
structure ExecState where
  indeg : String → Nat
  outputs : List (String × String)
  varsM : List (String × String)
  running : List (String × Option String)
  dispatched : List String
  resultsList : List (String × String × String × String)
  artifacts : List (String × String)
  aborted : Bool

/-- Effective `stop_on_fail` (`executor.rs` line 43). -/
def stopOf (p : Pipeline) : Bool := p.stop_on_fail.getD false

/-- Initial ready set: tasks whose indegree starts at zero (lines 57-59). -/
def initReady (p : Pipeline) : List String :=
  (taskNames p.tasks).filter (fun n => indeg0 p.tasks n == 0)

/-- State at entry of the driver loop: run directory created, the pipeline
re-serialization persisted, initial batch spawned. -/
def initState (p : Pipeline) : ExecState where
  indeg := indeg0 p.tasks
  outputs := []
  varsM := []
  running := (initReady p).map (fun n => (n, none))
  dispatched := initReady p
  resultsList := []
  artifacts := [("pipeline.yaml", persistedYaml p)]
  aborted := false

/-- Record the command a task future fixed at its snapshot point. -/
def setCmd (running : List (String × Option String)) (t : String) (cmd : String) :
    List (String × Option String) :=
  running.map (fun x => if x.1 = t then (x.1, some cmd) else x)

/-- Remove a completed future from the in-flight set. -/
def removeRun (running : List (String × Option String)) (t : String) :
    List (String × Option String) :=
  running.filter (fun x => x.1 != t)

/-- One indegree decrement with spawn-on-zero (`executor.rs` lines 131-148):
`get_mut` succeeds only for known task names, the decrement is saturating, and
a dependent reaching zero is pushed as a fresh future. -/
def releaseDep (tasks : List TaskDef) (s : ExecState) (d : String) : ExecState :=
  if d ∈ taskNames tasks then
    let n' := s.indeg d - 1
    let s' := { s with indeg := upd s.indeg d n' }
    if n' = 0 then
      { s' with running := s'.running ++ [(d, none)],
                dispatched := s'.dispatched ++ [d] }
    else s'
  else s

/-- Driver handling of an `Ok` completion (`executor.rs` lines 97-149): write
the `.log` and `.json` artifacts, insert the captured stdout into the shared
outputs map, push onto `ordered_results`, then abort if the exit status
failed under `stop_on_fail`, otherwise decrement dependents and spawn those
reaching indegree zero. -/
def stepOk (p : Pipeline) (s : ExecState) (t cmd stdout stderr : String)
    (st : ExitSt) (ts iso : String) : ExecState :=
  let s1 : ExecState :=
    { s with
      artifacts := s.artifacts ++
        [(sanitize_filename t ++ "_" ++ ts ++ ".log",
            logSummary t cmd st.code stdout stderr),
          (sanitize_filename t ++ "_" ++ ts ++ ".json",
            jsonManifest t cmd st.code iso)]
      outputs := s.outputs ++ [(t, stdout)]
      resultsList := s.resultsList ++ [(t, cmd, stdout, stderr)]
      running := removeRun s.running t }
  if st.success = false ∧ stopOf p = true then { s1 with aborted := true }
  else (adjOf p.tasks t).foldl (releaseDep p.tasks) s1

/-- Driver handling of an `Err` completion (`executor.rs` lines 151-157): no
artifacts, no output, no release of dependents; under `stop_on_fail` the run
aborts. -/
def stepErr (p : Pipeline) (s : ExecState) (t : String) : ExecState :=
  { s with running := removeRun s.running t, aborted := stopOf p }

/-- Interleaving semantics of the executor.  A `snapshot` step is a spawned
task runner locking and cloning the shared maps and fixing its interpolated
command (`spawn_task_future` lines 206-208); `perm` is the arbitrary
iteration order of the outputs `HashMap` clone.  A `completeOk`/`completeErr`
step is the driver observing one completion from `FuturesUnordered`, with
adversarial captured output, exit status and clock readings. -/
inductive Step (p : Pipeline) : ExecState → ExecState → Prop
  | snapshot (s : ExecState) (t : String) (td : TaskDef)
      (perm : List (String × String)) :
      s.aborted = false →
      (t, none) ∈ s.running →
      p.tasks.find? (fun x => x.name == t) = some td →
      perm.Perm s.outputs →
      Step p s { s with
        running := setCmd s.running t (interpolate_command td.run perm s.varsM) }
  | completeOk (s : ExecState) (t cmd stdout stderr : String) (st : ExitSt)
      (ts iso : String) :
      s.aborted = false →
      (t, some cmd) ∈ s.running →
      Step p s (stepOk p s t cmd stdout stderr st ts iso)
  | completeErr (s : ExecState) (t cmd msg : String) :
      s.aborted = false →
      (t, some cmd) ∈ s.running →
      Step p s (stepErr p s t)

/-- Reachable driver states of a run of the pipeline. -/
inductive Reach (p : Pipeline) : ExecState → Prop
  | init : Reach p (initState p)
  | step {s s'} : Reach p s → Step p s s' → Reach p s'

/-- Direct-dependency relation: `b` is a declared dependency of `a`. -/
def depRel (tasks : List TaskDef) (a b : String) : Prop :=
  b ∈ depsOf tasks a

/-- A dispatched command is the interpolation of its task's template against a
snapshot of the outputs map; the snapshot's entries persist in the current
map and cover every transitive dependency. -/
def CmdOk (p : Pipeline) (s : ExecState) (n cmd : String) : Prop :=
  ∃ td snap, p.tasks.find? (fun x => x.name == n) = some td ∧
    (∀ kv ∈ snap, kv ∈ s.outputs) ∧ ((snap.map Prod.fst).Nodup) ∧
    cmd = interpolate_command td.run snap [] ∧
    (∀ T, Relation.TransGen (depRel p.tasks) n T → ∃ o, (T, o) ∈ snap)

theorem lookup_append {α β : Type} [BEq α] (l1 l2 : List (α × β)) (k : α) :
    List.lookup k (l1 ++ l2) =
      match List.lookup k l1 with
      | some v => some v
      | none => List.lookup k l2 := by
  induction l1 with
  | nil => simp [List.lookup]
  | cons kv l1 ih =>
    simp only [List.cons_append, List.lookup]
    by_cases h : k == kv.1
    · simp [h]
    · simp only [show (k == kv.1) = false by simpa using h]
      exact ih

theorem lookup_eq_none_iff {β : Type} (l : List (String × β)) (k : String) :
    List.lookup k l = none ↔ k ∉ l.map Prod.fst := by
  induction l with
  | nil => simp [List.lookup]
  | cons kv l ih =>
    simp only [List.lookup, List.map_cons, List.mem_cons]
    by_cases h : k == kv.1
    · have : k = kv.1 := by simpa using h
      simp [h, this]
    · have hne : ¬ k = kv.1 := by simpa using h
      simp only [show (k == kv.1) = false by simpa using h, ih]
      constructor
      · intro h1
        intro habs
        rcases habs with he | hm
        · exact hne he
        · exact h1 hm
      · intro h1 hm
        exact h1 (Or.inr hm)

theorem lookup_some_mem {β : Type} {l : List (String × β)} {k : String} {v : β}
    (h : List.lookup k l = some v) : (k, v) ∈ l := by
  induction l with
  | nil => simp [List.lookup] at h
  | cons kv l ih =>
    simp only [List.lookup] at h
    cases hk : k == kv.1 with
    | false =>
      rw [hk] at h
      exact List.mem_cons_of_mem _ (ih h)
    | true =>
      rw [hk] at h
      have hv : some kv.2 = some v := h
      cases hv
      have hke : k = kv.1 := by simpa using hk
      subst hke
      exact List.mem_cons_self _ _

theorem mem_lookup_some {β : Type} {l : List (String × β)} {k : String} {v : β}
    (hnd : (l.map Prod.fst).Nodup) (h : (k, v) ∈ l) : List.lookup k l = some v := by
  induction l with
  | nil => cases h
  | cons kv l ih =>
    rw [List.map_cons] at hnd
    have hnd' := List.nodup_cons.mp hnd
    rcases List.mem_cons.mp h with rfl | hm
    · simp [List.lookup]
    · have hkne : k ≠ kv.1 := by
        intro he
        exact hnd'.1 (he ▸ List.mem_map.mpr ⟨(k, v), hm, rfl⟩)
      simp only [List.lookup, show (k == kv.1) = false by simpa using hkne]
      exact ih hnd'.2 hm

theorem countP_split_at (l : List String) (p : String → Bool) (t : String)
    (hpt : p t = true) :
    l.countP p = l.countP (fun d => p d && d != t) + l.count t := by
  induction l with
  | nil => simp
  | cons d rest ih =>
    rw [List.countP_cons, List.countP_cons, List.count_cons, ih]
    by_cases hd : d = t
    · subst hd
      simp only [hpt, beq_self_eq_true, bne_self_eq_false, Bool.and_false,
        if_true, Bool.false_eq_true, if_false]
      omega
    · have hbne : (d == t) = false := by simpa using hd
      have hbne2 : (d != t) = true := by simp [bne, hbne]
      by_cases hp : p d = true
      · simp only [hp, hbne, hbne2, Bool.and_true, if_true, Bool.false_eq_true,
          if_false]
        omega
      · have hpf : p d = false := by simpa using hp
        simp only [hpf, hbne, Bool.false_and, Bool.false_eq_true, if_false]
        omega

theorem count_le_countP (l : List String) (p : String → Bool) (t : String)
    (hpt : p t = true) : l.count t ≤ l.countP p := by
  rw [countP_split_at l p t hpt]
  omega

theorem foldl_append_hom {α : Type} (f : TaskDef → List α) :
    ∀ (l : List TaskDef) (acc : List α),
    l.foldl (fun acc t => acc ++ f t) acc = acc ++ l.foldl (fun acc t => acc ++ f t) [] := by
  intro l
  induction l with
  | nil => simp
  | cons t rest ih =>
    intro acc
    rw [List.foldl_cons, ih (acc ++ f t), List.foldl_cons,
      ih ([] ++ f t)]
    simp

theorem adjOf_cons {u : TaskDef} {rest : List TaskDef} {a : String} :
    adjOf (u :: rest) a =
      (u.depends_on.filter (fun x => x == a)).map (fun _ => u.name) ++ adjOf rest a := by
  rw [adjOf, List.foldl_cons, foldl_append_hom, List.nil_append]
  rfl

theorem count_not_mem_zero {l : List String} {d : String} (h : d ∉ l) :
    l.count d = 0 :=
  List.count_eq_zero.mpr h

theorem adjOf_count {tasks : List TaskDef} {a d : String}
    (hnd : (taskNames tasks).Nodup) :
    (adjOf tasks a).count d = (depsOf tasks d).count a := by
  induction tasks with
  | nil => simp [adjOf, depsOf, List.lookup]
  | cons u rest ih =>
    rw [taskNames, List.map_cons] at hnd
    have hnd' := List.nodup_cons.mp hnd
    rw [adjOf_cons, List.count_append]
    by_cases hu : u.name = d
    · subst hu
      have hzero : (adjOf rest a).count u.name = 0 := by
        apply count_not_mem_zero
        intro hmem
        exact hnd'.1 (adjOf_mem_names hmem)
      have hdeps : depsOf (u :: rest) u.name = u.depends_on := by
        simp [depsOf, List.find?]
      rw [hzero, hdeps]
      have hpiece : ((u.depends_on.filter (fun x => x == a)).map
          (fun _ => u.name)).count u.name = u.depends_on.count a := by
        rw [List.count_eq_countP, List.countP_eq_length_filter,
          List.count_eq_countP, List.countP_eq_length_filter,
          List.filter_map, List.length_map]
        congr 1
        apply List.filter_eq_self.mpr
        intro b _
        simp
      rw [hpiece]
      omega
    · have hpiece : ((u.depends_on.filter (fun x => x == a)).map
          (fun _ => u.name)).count d = 0 := by
        apply count_not_mem_zero
        intro hmem
        obtain ⟨y, _, hy⟩ := List.mem_map.mp hmem
        exact hu hy
      have hdeps : depsOf (u :: rest) d = depsOf rest d := by
        simp only [depsOf, List.find?]
        rw [show (u.name == d) = false by simpa using hu]
      rw [hpiece, hdeps, ih hnd'.2]
      omega

theorem indeg0_not_mem_zero {tasks : List TaskDef} {n : String}
    (h : n ∉ taskNames tasks) : indeg0 tasks n = 0 := by
  induction tasks with
  | nil => simp [indeg0]
  | cons u rest ih =>
    rw [taskNames, List.map_cons] at h
    have hu : u.name ≠ n := fun he => h (by simp [he])
    have hr : n ∉ taskNames rest := fun hm => h (by simp [taskNames] at hm ⊢; tauto)
    rw [indeg0, List.foldl_cons, if_neg hu]
    exact ih hr

theorem indeg0_eq_depsOf_length {tasks : List TaskDef} {n : String}
    (hnd : (taskNames tasks).Nodup) :
    indeg0 tasks n = (depsOf tasks n).length := by
  have aux : ∀ (l : List TaskDef) (a : Nat),
      l.foldl (fun acc t => if t.name = n then acc + t.depends_on.length else acc) a =
      a + l.foldl (fun acc t => if t.name = n then acc + t.depends_on.length else acc) 0 := by
    intro l
    induction l with
    | nil => simp
    | cons u rest ih =>
      intro a
      rw [List.foldl_cons, ih, List.foldl_cons, ih (if u.name = n then 0 + _ else 0)]
      by_cases hu : u.name = n <;> simp [hu] <;> omega
  induction tasks with
  | nil => simp [indeg0, depsOf, List.lookup]
  | cons u rest ih =>
    rw [taskNames, List.map_cons] at hnd
    have hnd' := List.nodup_cons.mp hnd
    rw [indeg0, List.foldl_cons, aux]
    by_cases hu : u.name = n
    · subst hu
      have hzero : indeg0 rest u.name = 0 := by
        rw [indeg0_not_mem_zero hnd'.1]
      rw [show depsOf (u :: rest) u.name = u.depends_on by simp [depsOf, List.find?]]
      rw [indeg0] at hzero
      rw [hzero]
      simp
    · rw [show depsOf (u :: rest) n = depsOf rest n by
        simp only [depsOf, List.find?]
        rw [show (u.name == n) = false by simpa using hu]]
      rw [← indeg0, ih hnd'.2]
      simp [hu]

/-- Outcome of the dependent-release loop over one completed task's adjacency
list: every listed dependent's indegree is decremented once per occurrence,
and exactly the dependents whose indegree is consumed to zero are spawned,
each once. -/
theorem releaseFold (tasks : List TaskDef) :
    ∀ (L : List String) (s : ExecState),
    (∀ d ∈ L, d ∈ taskNames tasks) →
    (∀ d ∈ L, L.count d ≤ s.indeg d) →
    ∃ news : List String,
      (L.foldl (releaseDep tasks) s).outputs = s.outputs ∧
      (L.foldl (releaseDep tasks) s).varsM = s.varsM ∧
      (L.foldl (releaseDep tasks) s).resultsList = s.resultsList ∧
      (L.foldl (releaseDep tasks) s).artifacts = s.artifacts ∧
      (L.foldl (releaseDep tasks) s).aborted = s.aborted ∧
      (∀ n, (L.foldl (releaseDep tasks) s).indeg n = s.indeg n - L.count n) ∧
      (L.foldl (releaseDep tasks) s).dispatched = s.dispatched ++ news ∧
      (L.foldl (releaseDep tasks) s).running =
        s.running ++ news.map (fun n => (n, none)) ∧
      news.Nodup ∧
      (∀ n, n ∈ news ↔ 0 < L.count n ∧ s.indeg n = L.count n) := by
  intro L
  induction L with
  | nil =>
    intro s _ _
    refine ⟨[], by simp, by simp, by simp, by simp, by simp, ?_, by simp, by simp,
      List.nodup_nil, by simp⟩
    intro n
    simp
  | cons d0 rest ih =>
    intro s hnames hcount
    have hd0n : d0 ∈ taskNames tasks := hnames d0 (List.mem_cons_self _ _)
    have hk1 : rest.count d0 + 1 ≤ s.indeg d0 := by
      have := hcount d0 (List.mem_cons_self _ _)
      rw [List.count_cons] at this
      simpa using this
    have hcount_cons : ∀ n : String, (d0 :: rest).count n =
        rest.count n + if d0 = n then 1 else 0 := by
      intro n
      rw [List.count_cons]
      by_cases he : d0 = n
      · simp [he]
      · simp [he, show (d0 == n) = false by simpa using he]
    set k := s.indeg d0 with hkdef
    have hrel : releaseDep tasks s d0 =
        if k - 1 = 0 then
          { s with indeg := upd s.indeg d0 (k - 1),
                   running := s.running ++ [(d0, none)],
                   dispatched := s.dispatched ++ [d0] }
        else { s with indeg := upd s.indeg d0 (k - 1) } := by
      rw [releaseDep, if_pos hd0n]
    have hfold : (d0 :: rest).foldl (releaseDep tasks) s =
        rest.foldl (releaseDep tasks) (releaseDep tasks s d0) := by
      rw [List.foldl_cons]
    by_cases hz : k - 1 = 0
    · -- the head dependent reaches indegree zero and is spawned
      have hkeq : k = 1 := by omega
      have hrc0 : rest.count d0 = 0 := by omega
      rw [hrel, if_pos hz] at hfold
      set s2 : ExecState :=
        { s with indeg := upd s.indeg d0 (k - 1),
                 running := s.running ++ [(d0, none)],
                 dispatched := s.dispatched ++ [d0] } with hs2
      have hs2indeg : ∀ n, s2.indeg n = if n = d0 then k - 1 else s.indeg n := by
        intro n
        simp only [hs2, upd]
      have hpre1 : ∀ d ∈ rest, d ∈ taskNames tasks :=
        fun d hd => hnames d (List.mem_cons_of_mem _ hd)
      have hpre2 : ∀ d ∈ rest, rest.count d ≤ s2.indeg d := by
        intro d hd
        rw [hs2indeg]
        by_cases hdd : d = d0
        · subst hdd
          rw [if_pos rfl, hrc0]
          omega
        · rw [if_neg hdd]
          have := hcount d (List.mem_cons_of_mem _ hd)
          rw [hcount_cons] at this
          omega
      obtain ⟨news', h1, h2, h3, h4, h5, h6, h7, h8, h9, h10⟩ := ih s2 hpre1 hpre2
      have hd0news' : d0 ∉ news' := by
        intro habs
        have h11 := (h10 d0).mp habs
        rw [hs2indeg, if_pos rfl] at h11
        omega
      refine ⟨d0 :: news', by rw [hfold]; exact h1, by rw [hfold]; exact h2,
        by rw [hfold]; exact h3, by rw [hfold]; exact h4,
        by rw [hfold]; exact h5, ?_, ?_, ?_,
        List.nodup_cons.mpr ⟨hd0news', h9⟩, ?_⟩
      · intro n
        rw [hfold, h6 n, hs2indeg, hcount_cons]
        by_cases hnd : n = d0
        · subst hnd
          rw [if_pos rfl, if_pos rfl, hrc0]
          omega
        · rw [if_neg hnd, if_neg (fun he => hnd he.symm)]
          omega
      · rw [hfold, h7]
        simp only [hs2]
        rw [List.append_assoc]
        rfl
      · rw [hfold, h8]
        simp only [hs2]
        rw [List.append_assoc]
        rfl
      · intro n
        rw [List.mem_cons, h10 n, hs2indeg, hcount_cons]
        by_cases hnd : n = d0
        · subst hnd
          rw [if_pos rfl, if_pos rfl, hrc0]
          constructor
          · intro _
            omega
          · intro _
            exact Or.inl rfl
        · rw [if_neg hnd, if_neg (fun he => hnd he.symm)]
          constructor
          · rintro (he | hn)
            · exact absurd he hnd
            · omega
          · intro hn
            refine Or.inr ?_
            omega
    · -- the head dependent's indegree stays positive
      have hk2 : 2 ≤ k := by omega
      rw [hrel, if_neg hz] at hfold
      set s2 : ExecState := { s with indeg := upd s.indeg d0 (k - 1) } with hs2
      have hs2indeg : ∀ n, s2.indeg n = if n = d0 then k - 1 else s.indeg n := by
        intro n
        simp only [hs2, upd]
      have hpre1 : ∀ d ∈ rest, d ∈ taskNames tasks :=
        fun d hd => hnames d (List.mem_cons_of_mem _ hd)
      have hpre2 : ∀ d ∈ rest, rest.count d ≤ s2.indeg d := by
        intro d hd
        rw [hs2indeg]
        by_cases hdd : d = d0
        · subst hdd
          rw [if_pos rfl]
          omega
        · rw [if_neg hdd]
          have := hcount d (List.mem_cons_of_mem _ hd)
          rw [hcount_cons] at this
          omega
      obtain ⟨news', h1, h2, h3, h4, h5, h6, h7, h8, h9, h10⟩ := ih s2 hpre1 hpre2
      have hrun2 : s2.running = s.running := by rw [hs2]
      have hdisp2 : s2.dispatched = s.dispatched := by rw [hs2]
      refine ⟨news', by rw [hfold]; exact h1, by rw [hfold]; exact h2,
        by rw [hfold]; exact h3, by rw [hfold]; exact h4,
        by rw [hfold]; exact h5, ?_, by rw [hfold, h7, hdisp2],
        by rw [hfold, h8, hrun2], h9, ?_⟩
      · intro n
        rw [hfold, h6 n, hs2indeg, hcount_cons]
        by_cases hnd : n = d0
        · subst hnd
          rw [if_pos rfl, if_pos rfl]
          omega
        · rw [if_neg hnd, if_neg (fun he => hnd he.symm)]
          omega
      · intro n
        rw [h10 n, hs2indeg, hcount_cons]
        by_cases hnd : n = d0
        · subst hnd
          rw [if_pos rfl, if_pos rfl]
          constructor
          · intro h11
            omega
          · intro h11
            omega
        · rw [if_neg hnd, if_neg (fun he => hnd he.symm)]
          omega

/-- Master invariant of the driver loop.  The indegree clauses are stated for
non-aborted states only: `anyhow::bail!` leaves the loop immediately, so an
aborted state takes no further steps. -/
structure Inv (p : Pipeline) (s : ExecState) : Prop where
  varsNil : s.varsM = []
  outKeys : (s.outputs.map Prod.fst).Nodup
  runKeys : (s.running.map Prod.fst).Nodup
  dispND : s.dispatched.Nodup
  runDisp : ∀ x ∈ s.running, x.1 ∈ s.dispatched
  runNames : ∀ x ∈ s.running, x.1 ∈ taskNames p.tasks
  outDisp : ∀ kv ∈ s.outputs, kv.1 ∈ s.dispatched
  outNotRun : ∀ kv ∈ s.outputs, kv.1 ∉ s.running.map Prod.fst
  dispNames : ∀ d ∈ s.dispatched, d ∈ taskNames p.tasks
  dispDeps : ∀ d ∈ s.dispatched, ∀ x ∈ depsOf p.tasks d, ∃ o, (x, o) ∈ s.outputs
  indegInv : s.aborted = false → ∀ n, n ∈ taskNames p.tasks →
    s.indeg n = (depsOf p.tasks n).countP
      (fun d => (List.lookup d s.outputs).isNone)
  undispPos : s.aborted = false → ∀ n, n ∈ taskNames p.tasks →
    n ∉ s.dispatched → s.indeg n ≠ 0
  cmdOk : ∀ x ∈ s.running, ∀ c, x.2 = some c → CmdOk p s x.1 c
  resCmd : ∀ r ∈ s.resultsList, CmdOk p s r.1 r.2.1
  resOut : s.resultsList.map (fun r => r.1) = s.outputs.map Prod.fst
  arts : ∀ r ∈ s.resultsList, ∃ ts : String,
    (sanitize_filename r.1 ++ "_" ++ ts ++ ".log") ∈ s.artifacts.map Prod.fst ∧
    (sanitize_filename r.1 ++ "_" ++ ts ++ ".json") ∈ s.artifacts.map Prod.fst
  pyaml : ("pipeline.yaml", persistedYaml p) ∈ s.artifacts

/-- Every transitive dependency of a dispatched task has its output recorded. -/
theorem transOut {p : Pipeline} {s : ExecState} (inv : Inv p s) {n T : String}
    (hn : n ∈ s.dispatched) (h : Relation.TransGen (depRel p.tasks) n T) :
    ∃ o, (T, o) ∈ s.outputs := by
  induction h with
  | single hstep => exact inv.dispDeps n hn _ hstep
  | tail hT hstep ih =>
    obtain ⟨o, ho⟩ := ih
    exact inv.dispDeps _ (inv.outDisp _ ho) _ hstep

theorem setCmd_keys (r : List (String × Option String)) (t cmd : String) :
    (setCmd r t cmd).map Prod.fst = r.map Prod.fst := by
  rw [setCmd, List.map_map]
  apply List.map_congr_left
  intro x _
  by_cases h : x.1 = t <;> simp [h]

theorem mem_setCmd {r : List (String × Option String)} {t cmd : String}
    {y : String × Option String} (h : y ∈ setCmd r t cmd) :
    (y ∈ r ∧ y.1 ≠ t) ∨ (y.1 = t ∧ y.2 = some cmd ∧ (∃ oc, (t, oc) ∈ r)) := by
  obtain ⟨x, hx, hxy⟩ := List.mem_map.mp h
  by_cases hxt : x.1 = t
  · rw [if_pos hxt] at hxy
    subst hxy
    exact Or.inr ⟨hxt, rfl, x.2, hxt ▸ hx⟩
  · rw [if_neg hxt] at hxy
    subst hxy
    exact Or.inl ⟨hx, hxt⟩

theorem removeRun_sub {r : List (String × Option String)} {t : String}
    {y : String × Option String} (h : y ∈ removeRun r t) : y ∈ r ∧ y.1 ≠ t := by
  have := List.mem_filter.mp h
  refine ⟨this.1, ?_⟩
  simpa using this.2

theorem removeRun_keys_sub {r : List (String × Option String)} {t : String} :
    ∀ k ∈ (removeRun r t).map Prod.fst, k ∈ r.map Prod.fst ∧ k ≠ t := by
  intro k hk
  obtain ⟨y, hy, rfl⟩ := List.mem_map.mp hk
  obtain ⟨hyr, hyt⟩ := removeRun_sub hy
  exact ⟨List.mem_map.mpr ⟨y, hyr, rfl⟩, hyt⟩

theorem removeRun_keys_nodup {r : List (String × Option String)} {t : String}
    (h : (r.map Prod.fst).Nodup) : ((removeRun r t).map Prod.fst).Nodup := by
  rw [removeRun]
  exact h.sublist (List.Sublist.map Prod.fst (List.filter_sublist _))

theorem inv_init {p : Pipeline} (hu : UniqueNames p) : Inv p (initState p) := by
  have hnames : (taskNames p.tasks).Nodup := hu
  have hready : (initReady p).Nodup := List.Nodup.filter _ hnames
  have hreadyNames : ∀ n ∈ initReady p, n ∈ taskNames p.tasks := by
    intro n hn
    exact (List.mem_filter.mp hn).1
  have hreadyZero : ∀ n ∈ initReady p, indeg0 p.tasks n = 0 := by
    intro n hn
    have := (List.mem_filter.mp hn).2
    simpa using this
  refine ⟨rfl, by simp [initState], ?_, hready, ?_, ?_, ?_, ?_, ?_, ?_, ?_, ?_,
    ?_, ?_, rfl, ?_, by simp [initState]⟩
  · show ((List.map (fun n => (n, none)) (initReady p)).map Prod.fst).Nodup
    rw [List.map_map]
    have : (Prod.fst ∘ fun n => ((n, none) : String × Option String)) = id := by
      funext n
      rfl
    rw [this, List.map_id]
    exact hready
  · rintro x hx
    obtain ⟨n, hn, rfl⟩ := List.mem_map.mp hx
    exact hn
  · rintro x hx
    obtain ⟨n, hn, rfl⟩ := List.mem_map.mp hx
    exact hreadyNames n hn
  · rintro kv hkv
    cases hkv
  · rintro kv hkv
    cases hkv
  · intro d hd
    exact hreadyNames d hd
  · intro d hd x hx
    have h0 := hreadyZero d hd
    rw [indeg0_eq_depsOf_length hnames] at h0
    rw [List.length_eq_zero.mp h0] at hx
    cases hx
  · intro _ n hn
    show indeg0 p.tasks n = _
    rw [indeg0_eq_depsOf_length hnames]
    symm
    rw [List.countP_eq_length]
    intro d _
    simp [List.lookup]
  · intro _ n hn hnd
    intro habs
    apply hnd
    exact List.mem_filter.mpr ⟨hn, by simpa using habs⟩
  · rintro x hx c hc
    obtain ⟨n, hn, rfl⟩ := List.mem_map.mp hx
    cases hc
  · rintro r hr
    cases hr
  · rintro r hr
    cases hr

theorem cmdOk_mono {p : Pipeline} {s s' : ExecState} {n c : String}
    (h : CmdOk p s n c) (hsub : ∀ kv ∈ s.outputs, kv ∈ s'.outputs) :
    CmdOk p s' n c := by
  obtain ⟨td, snap, h1, h2, h3, h4, h5⟩ := h
  exact ⟨td, snap, h1, fun kv hkv => hsub kv (h2 kv hkv), h3, h4, h5⟩

theorem inv_snapshot {p : Pipeline} {s : ExecState} (inv : Inv p s)
    {t : String} {td : TaskDef} {perm : List (String × String)}
    (hrun : (t, none) ∈ s.running)
    (hfind : p.tasks.find? (fun x => x.name == t) = some td)
    (hperm : perm.Perm s.outputs) :
    Inv p { s with
      running := setCmd s.running t (interpolate_command td.run perm s.varsM) } := by
  set cmd0 := interpolate_command td.run perm s.varsM with hcmd0
  have htdisp : t ∈ s.dispatched := inv.runDisp _ hrun
  refine ⟨inv.varsNil, inv.outKeys, ?_, inv.dispND, ?_, ?_, inv.outDisp, ?_,
    inv.dispNames, inv.dispDeps, inv.indegInv, inv.undispPos, ?_, ?_,
    inv.resOut, inv.arts, inv.pyaml⟩
  · show ((setCmd s.running t cmd0).map Prod.fst).Nodup
    rw [setCmd_keys]
    exact inv.runKeys
  · intro x hx
    rcases mem_setCmd hx with ⟨hxr, _⟩ | ⟨hxt, _, _⟩
    · exact inv.runDisp x hxr
    · exact hxt ▸ htdisp
  · intro x hx
    rcases mem_setCmd hx with ⟨hxr, _⟩ | ⟨hxt, _, _⟩
    · exact inv.runNames x hxr
    · exact hxt ▸ inv.runNames _ hrun
  · intro kv hkv
    show kv.1 ∉ (setCmd s.running t cmd0).map Prod.fst
    rw [setCmd_keys]
    exact inv.outNotRun kv hkv
  · intro x hx c hc
    rcases mem_setCmd hx with ⟨hxr, _⟩ | ⟨hxt, hx2, _⟩
    · exact inv.cmdOk x hxr c hc
    · rw [hx2] at hc
      cases hc
      rw [hxt]
      refine ⟨td, perm, hfind, ?_, ?_, ?_, ?_⟩
      · intro kv hkv
        exact hperm.mem_iff.mp hkv
      · exact (List.Perm.nodup_iff (hperm.map Prod.fst)).mpr inv.outKeys
      · rw [hcmd0, inv.varsNil]
      · intro T hT
        obtain ⟨o, ho⟩ := transOut inv htdisp hT
        exact ⟨o, hperm.mem_iff.mpr ho⟩
  · intro r hr
    exact inv.resCmd r hr

theorem inv_stepErr {p : Pipeline} {s : ExecState} (inv : Inv p s)
    (hab : s.aborted = false) {t : String} :
    Inv p (stepErr p s t) := by
  refine ⟨inv.varsNil, inv.outKeys, removeRun_keys_nodup inv.runKeys,
    inv.dispND, ?_, ?_, inv.outDisp, ?_, inv.dispNames, inv.dispDeps,
    ?_, ?_, ?_, ?_, inv.resOut, inv.arts, inv.pyaml⟩
  · intro x hx
    exact inv.runDisp x (removeRun_sub hx).1
  · intro x hx
    exact inv.runNames x (removeRun_sub hx).1
  · intro kv hkv habs
    obtain ⟨hk, _⟩ := removeRun_keys_sub _ habs
    exact inv.outNotRun kv hkv hk
  · intro _ n hn
    exact inv.indegInv hab n hn
  · intro _ n hn hnd
    exact inv.undispPos hab n hn hnd
  · intro x hx c hc
    exact inv.cmdOk x (removeRun_sub hx).1 c hc
  · intro r hr
    exact inv.resCmd r hr

theorem inv_stepOk {p : Pipeline} {s : ExecState} (hu : UniqueNames p)
    (inv : Inv p s) {t cmd stdout stderr : String} {st : ExitSt} {ts iso : String}
    (hab : s.aborted = false) (hrun : (t, some cmd) ∈ s.running) :
    Inv p (stepOk p s t cmd stdout stderr st ts iso) := by
  have hnames : (taskNames p.tasks).Nodup := hu
  have htdisp : t ∈ s.dispatched := inv.runDisp _ hrun
  have htnames : t ∈ taskNames p.tasks := inv.runNames _ hrun
  have htkey : t ∈ s.running.map Prod.fst := List.mem_map.mpr ⟨_, hrun, rfl⟩
  have htnotout : t ∉ s.outputs.map Prod.fst := by
    intro habs
    obtain ⟨kv, hkv, hk⟩ := List.mem_map.mp habs
    exact inv.outNotRun kv hkv (hk ▸ htkey)
  have hlookt : List.lookup t s.outputs = none :=
    (lookup_eq_none_iff _ _).mpr htnotout
  set s1 : ExecState :=
    { s with
      artifacts := s.artifacts ++
        [(sanitize_filename t ++ "_" ++ ts ++ ".log",
            logSummary t cmd st.code stdout stderr),
          (sanitize_filename t ++ "_" ++ ts ++ ".json",
            jsonManifest t cmd st.code iso)]
      outputs := s.outputs ++ [(t, stdout)]
      resultsList := s.resultsList ++ [(t, cmd, stdout, stderr)]
      running := removeRun s.running t } with hs1
  have hstepeq : stepOk p s t cmd stdout stderr st ts iso =
      if st.success = false ∧ stopOf p = true then { s1 with aborted := true }
      else (adjOf p.tasks t).foldl (releaseDep p.tasks) s1 := by
    rw [stepOk]
  have houtsub : ∀ kv ∈ s.outputs, kv ∈ s1.outputs := by
    intro kv hkv
    exact List.mem_append.mpr (Or.inl hkv)
  have houtKeys1 : (s1.outputs.map Prod.fst).Nodup := by
    show ((s.outputs ++ [(t, stdout)]).map Prod.fst).Nodup
    rw [List.map_append]
    refine List.Nodup.append inv.outKeys (by simp) ?_
    intro a ha hb
    simp only [List.map_cons, List.map_nil, List.mem_singleton] at hb
    exact htnotout (hb ▸ ha)
  have houtDisp1 : ∀ kv ∈ s1.outputs, kv.1 ∈ s.dispatched := by
    intro kv hkv
    rcases List.mem_append.mp hkv with h1 | h1
    · exact inv.outDisp kv h1
    · rw [List.mem_singleton.mp h1]
      exact htdisp
  have hresOut1 : s1.resultsList.map (fun r => r.1) = s1.outputs.map Prod.fst := by
    show ((s.resultsList ++ [(t, cmd, stdout, stderr)]).map (fun r => r.1)) =
      (s.outputs ++ [(t, stdout)]).map Prod.fst
    rw [List.map_append, List.map_append, inv.resOut]
    rfl
  have hresCmd1 : ∀ r ∈ s1.resultsList, CmdOk p s1 r.1 r.2.1 := by
    intro r hr
    rcases List.mem_append.mp hr with h1 | h1
    · exact cmdOk_mono (inv.resCmd r h1) houtsub
    · rw [List.mem_singleton.mp h1]
      exact cmdOk_mono (inv.cmdOk _ hrun cmd rfl) houtsub
  have harts1 : ∀ r ∈ s1.resultsList, ∃ ts' : String,
      (sanitize_filename r.1 ++ "_" ++ ts' ++ ".log") ∈ s1.artifacts.map Prod.fst ∧
      (sanitize_filename r.1 ++ "_" ++ ts' ++ ".json") ∈ s1.artifacts.map Prod.fst := by
    intro r hr
    rcases List.mem_append.mp hr with h1 | h1
    · obtain ⟨ts', hl, hj⟩ := inv.arts r h1
      refine ⟨ts', ?_, ?_⟩ <;>
        · show _ ∈ (s.artifacts ++ _).map Prod.fst
          rw [List.map_append]
          exact List.mem_append.mpr (Or.inl (by assumption))
    · rw [List.mem_singleton.mp h1]
      refine ⟨ts, ?_, ?_⟩ <;>
        · show _ ∈ (s.artifacts ++ _).map Prod.fst
          rw [List.map_append]
          refine List.mem_append.mpr (Or.inr ?_)
          simp
  have hpyaml1 : ("pipeline.yaml", persistedYaml p) ∈ s1.artifacts :=
    List.mem_append.mpr (Or.inl inv.pyaml)
  have houtNotRun1 : ∀ kv ∈ s1.outputs, kv.1 ∉ (removeRun s.running t).map Prod.fst := by
    intro kv hkv habs
    obtain ⟨hk, hkt⟩ := removeRun_keys_sub _ habs
    rcases List.mem_append.mp hkv with h1 | h1
    · exact inv.outNotRun kv h1 hk
    · exact hkt (congrArg Prod.fst (List.mem_singleton.mp h1))
  rw [hstepeq]
  by_cases hcond : st.success = false ∧ stopOf p = true
  · rw [if_pos hcond]
    refine ⟨inv.varsNil, houtKeys1, removeRun_keys_nodup inv.runKeys, inv.dispND,
      ?_, ?_, houtDisp1, houtNotRun1, inv.dispNames, ?_, ?_, ?_, ?_, hresCmd1,
      hresOut1, harts1, hpyaml1⟩
    · intro x hx
      exact inv.runDisp x (removeRun_sub hx).1
    · intro x hx
      exact inv.runNames x (removeRun_sub hx).1
    · intro d hd x hx
      obtain ⟨o, ho⟩ := inv.dispDeps d hd x hx
      exact ⟨o, houtsub _ ho⟩
    · intro habs
      cases habs
    · intro habs
      cases habs
    · intro x hx c hc
      exact cmdOk_mono (inv.cmdOk x (removeRun_sub hx).1 c hc) houtsub
  · rw [if_neg hcond]
    set L := adjOf p.tasks t with hL
    have hLnames : ∀ d ∈ L, d ∈ taskNames p.tasks := fun d hd => adjOf_mem_names hd
    have hLcount : ∀ d ∈ L, L.count d ≤ s1.indeg d := by
      intro d hd
      have hdn : d ∈ taskNames p.tasks := hLnames d hd
      have hcnt : L.count d = (depsOf p.tasks d).count t := adjOf_count hnames
      have hle : (depsOf p.tasks d).count t ≤
          (depsOf p.tasks d).countP (fun x => (List.lookup x s.outputs).isNone) := by
        apply count_le_countP
        rw [hlookt]
        rfl
      have hindeg : s1.indeg d = (depsOf p.tasks d).countP
          (fun x => (List.lookup x s.outputs).isNone) := inv.indegInv hab d hdn
      omega
    obtain ⟨news, h1, h2, h3, h4, h5, h6, h7, h8, h9, h10⟩ :=
      releaseFold p.tasks L s1 hLnames hLcount
    have hnewsMem : ∀ n ∈ news, 0 < L.count n ∧ s.indeg n = L.count n := by
      intro n hn
      exact (h10 n).mp hn
    have hnewsNames : ∀ n ∈ news, n ∈ taskNames p.tasks := by
      intro n hn
      obtain ⟨hpos, _⟩ := hnewsMem n hn
      exact hLnames n (List.count_pos_iff_mem.mp hpos)
    have hnewsNotDisp : ∀ n ∈ news, n ∉ s.dispatched := by
      intro n hn hdisp
      obtain ⟨hpos, heq⟩ := hnewsMem n hn
      have hdone : (depsOf p.tasks n).countP
          (fun x => (List.lookup x s.outputs).isNone) = 0 := by
        rw [List.countP_eq_zero]
        intro x hx
        obtain ⟨o, ho⟩ := inv.dispDeps n hdisp x hx
        have : List.lookup x s.outputs ≠ none := by
          rw [Ne, lookup_eq_none_iff]
          intro habs
          exact habs (List.mem_map.mpr ⟨(x, o), ho, rfl⟩)
        simp only [Option.isNone]
        intro hcontra
        cases hlx : List.lookup x s.outputs with
        | none => exact this hlx
        | some v => rw [hlx] at hcontra; cases hcontra
      have := inv.indegInv hab n (hnewsNames n hn)
      omega
    have hnewsNotRunKeys : ∀ n ∈ news, n ∉ (removeRun s.running t).map Prod.fst := by
      intro n hn habs
      obtain ⟨hk, _⟩ := removeRun_keys_sub _ habs
      obtain ⟨y, hy, rfl⟩ := List.mem_map.mp hk
      exact hnewsNotDisp _ hn (inv.runDisp y hy)
    have hfsub : ∀ kv ∈ s1.outputs, kv ∈ (L.foldl (releaseDep p.tasks) s1).outputs := by
      rw [h1]
      exact fun kv h => h
    have hmapfst : (Prod.fst ∘ fun n => ((n, none) : String × Option String)) = id := by
      funext n
      rfl
    refine ⟨?_, ?_, ?_, ?_, ?_, ?_, ?_, ?_, ?_, ?_, ?_, ?_, ?_, ?_, ?_, ?_, ?_⟩
    · rw [h2]
      exact inv.varsNil
    · rw [h1]
      exact houtKeys1
    · rw [h8]
      show ((removeRun s.running t ++ news.map (fun n => (n, none))).map Prod.fst).Nodup
      rw [List.map_append]
      refine List.Nodup.append (removeRun_keys_nodup inv.runKeys) ?_ ?_
      · rw [List.map_map, hmapfst, List.map_id]
        exact h9
      · intro a ha hb
        rw [List.map_map, hmapfst, List.map_id] at hb
        exact hnewsNotRunKeys a hb ha
    · rw [h7]
      show (s.dispatched ++ news).Nodup
      exact List.Nodup.append inv.dispND h9
        (fun a ha hb => hnewsNotDisp a hb ha)
    · rw [h8, h7]
      intro x hx
      rcases List.mem_append.mp hx with hxr | hxn
      · exact List.mem_append.mpr (Or.inl (inv.runDisp x (removeRun_sub hxr).1))
      · obtain ⟨n, hn, rfl⟩ := List.mem_map.mp hxn
        exact List.mem_append.mpr (Or.inr hn)
    · rw [h8]
      intro x hx
      rcases List.mem_append.mp hx with hxr | hxn
      · exact inv.runNames x (removeRun_sub hxr).1
      · obtain ⟨n, hn, rfl⟩ := List.mem_map.mp hxn
        exact hnewsNames n hn
    · rw [h1, h7]
      intro kv hkv
      exact List.mem_append.mpr (Or.inl (houtDisp1 kv hkv))
    · rw [h1, h8]
      intro kv hkv habs
      rw [List.map_append] at habs
      rcases List.mem_append.mp habs with hk | hk
      · exact houtNotRun1 kv hkv hk
      · rw [List.map_map, hmapfst, List.map_id] at hk
        exact hnewsNotDisp _ hk (houtDisp1 kv hkv)
    · rw [h7]
      intro d hd
      rcases List.mem_append.mp hd with hd1 | hd1
      · exact inv.dispNames d hd1
      · exact hnewsNames d hd1
    · rw [h7, h1]
      intro d hd x hx
      rcases List.mem_append.mp hd with hd1 | hd1
      · obtain ⟨o, ho⟩ := inv.dispDeps d hd1 x hx
        exact ⟨o, houtsub _ ho⟩
      · obtain ⟨hpos, heq⟩ := hnewsMem d hd1
        have hindeg := inv.indegInv hab d (hnewsNames d hd1)
        have hcnt : L.count d = (depsOf p.tasks d).count t := adjOf_count hnames
        have hsplit : (depsOf p.tasks d).countP
              (fun x => (List.lookup x s.outputs).isNone) =
            (depsOf p.tasks d).countP
              (fun x => (List.lookup x s.outputs).isNone && x != t) +
            (depsOf p.tasks d).count t :=
          countP_split_at (depsOf p.tasks d)
            (fun x => (List.lookup x s.outputs).isNone) t
            (by show (List.lookup t s.outputs).isNone = true; rw [hlookt]; rfl)
        have hzero : (depsOf p.tasks d).countP
            (fun x => (List.lookup x s.outputs).isNone && x != t) = 0 := by
          omega
        rw [List.countP_eq_zero] at hzero
        by_cases hxt : x = t
        · exact ⟨stdout, List.mem_append.mpr (Or.inr (by rw [hxt]; simp))⟩
        · have hnot := hzero x hx
          have hlsome : ¬ (List.lookup x s.outputs).isNone = true := by
            intro hcontra
            apply hnot
            rw [hcontra]
            simp [hxt]
          cases hlx : List.lookup x s.outputs with
          | none => rw [hlx] at hlsome; exact absurd rfl hlsome
          | some o => exact ⟨o, houtsub _ (lookup_some_mem hlx)⟩
    · intro hab1 n hn
      rw [h6 n, h1]
      have hindeg := inv.indegInv hab n hn
      have hcnt : L.count n = (depsOf p.tasks n).count t := adjOf_count hnames
      have hsplit : (depsOf p.tasks n).countP
            (fun x => (List.lookup x s.outputs).isNone) =
          (depsOf p.tasks n).countP
            (fun x => (List.lookup x s.outputs).isNone && x != t) +
          (depsOf p.tasks n).count t :=
        countP_split_at (depsOf p.tasks n)
          (fun x => (List.lookup x s.outputs).isNone) t
          (by show (List.lookup t s.outputs).isNone = true; rw [hlookt]; rfl)
      have hpred : ∀ x ∈ depsOf p.tasks n,
          (List.lookup x s1.outputs).isNone =
            ((List.lookup x s.outputs).isNone && x != t) := by
        intro x _
        show (List.lookup x (s.outputs ++ [(t, stdout)])).isNone = _
        rw [lookup_append]
        cases hlx : List.lookup x s.outputs with
        | some v => simp
        | none =>
          simp only [Option.isNone_none, Bool.true_and]
          by_cases hxt : x = t
          · subst hxt
            simp [List.lookup]
          · simp [List.lookup, show (x == t) = false by simpa using hxt, bne]
      rw [List.countP_congr (fun x hx => by rw [hpred x hx])]
      have hs1i : s1.indeg n = s.indeg n := rfl
      omega
    · intro hab1 n hn hnd
      rw [h6 n]
      rw [h7] at hnd
      have hnd1 : n ∉ s.dispatched := fun h => hnd (List.mem_append.mpr (Or.inl h))
      have hnd2 : n ∉ news := fun h => hnd (List.mem_append.mpr (Or.inr h))
      intro habs
      by_cases hpos : 0 < L.count n
      · have hle := hLcount n (List.count_pos_iff_mem.mp hpos)
        have hs1i : s1.indeg n = s.indeg n := rfl
        have heq : s.indeg n = L.count n := by omega
        exact hnd2 ((h10 n).mpr ⟨hpos, heq⟩)
      · have hz : L.count n = 0 := by omega
        have hs1i : s1.indeg n = s.indeg n := rfl
        exact inv.undispPos hab n hn hnd1 (by omega)
    · rw [h8]
      intro x hx c hc
      rcases List.mem_append.mp hx with hxr | hxn
      · exact cmdOk_mono (cmdOk_mono (inv.cmdOk x (removeRun_sub hxr).1 c hc)
          houtsub) hfsub
      · obtain ⟨n, hn, rfl⟩ := List.mem_map.mp hxn
        cases hc
    · rw [h3]
      intro r hr
      exact cmdOk_mono (hresCmd1 r hr) hfsub
    · rw [h3, h1]
      exact hresOut1
    · rw [h3, h4]
      exact harts1
    · rw [h4]
      exact hpyaml1

/-- The master invariant holds in every reachable state of a validated
pipeline. -/
theorem invReach {p : Pipeline} (hu : UniqueNames p) :
    ∀ {s : ExecState}, Reach p s → Inv p s := by
  intro s h
  induction h with
  | init => exact inv_init hu
  | step hr hs ih =>
    cases hs with
    | snapshot t td perm hab hrun hfind hperm =>
      exact inv_snapshot ih hrun hfind hperm
    | completeOk t cmd stdout stderr st ts iso hab hrun =>
      exact inv_stepOk hu ih hab hrun
    | completeErr t cmd msg hab hrun =>
      exact inv_stepErr ih hab

/-- Termination measure of the driver loop: undispatched tasks are weighted
twice, plus in-flight futures, plus futures that have not yet snapshotted. -/
def runMeasure (p : Pipeline) (s : ExecState) : Nat :=
  2 * ((taskNames p.tasks).filter (fun n => decide (n ∉ s.dispatched))).length +
    s.running.length +
    (s.running.filter (fun x => x.2.isNone)).length

theorem countP_split_pred (l : List String) (pq : String → Bool) (q : String → Bool) :
    l.countP pq = l.countP (fun x => pq x && q x) + l.countP (fun x => pq x && !q x) := by
  induction l with
  | nil => simp
  | cons d rest ih =>
    rw [List.countP_cons, List.countP_cons, List.countP_cons, ih]
    cases hp : pq d <;> cases hq : q d <;> simp [hp, hq] <;> omega

theorem setCmd_eq_of_not_mem {r : List (String × Option String)} {t cmd : String}
    (h : t ∉ r.map Prod.fst) : setCmd r t cmd = r := by
  rw [setCmd]
  conv_rhs => rw [← List.map_id r]
  apply List.map_congr_left
  intro x hx
  have hxt : x.1 ≠ t := by
    intro he
    exact h (he ▸ List.mem_map.mpr ⟨x, hx, rfl⟩)
  rw [if_neg hxt]
  rfl

theorem setCmd_isNone_count {r : List (String × Option String)} {t cmd : String}
    (hnd : (r.map Prod.fst).Nodup) (hmem : (t, none) ∈ r) :
    ((setCmd r t cmd).filter (fun x => x.2.isNone)).length + 1 =
      (r.filter (fun x => x.2.isNone)).length := by
  induction r with
  | nil => cases hmem
  | cons y rest ih =>
    rw [List.map_cons] at hnd
    have hnd' := List.nodup_cons.mp hnd
    by_cases hyt : y.1 = t
    · have hy : y = (t, none) := by
        rcases List.mem_cons.mp hmem with he | hm
        · exact he.symm
        · exact absurd (hyt ▸ List.mem_map.mpr ⟨(t, none), hm, hyt ▸ rfl⟩) hnd'.1
      have htrest : t ∉ rest.map Prod.fst := hyt ▸ hnd'.1
      rw [setCmd, List.map_cons, if_pos hyt, ← setCmd,
        setCmd_eq_of_not_mem htrest, hy]
      rw [List.filter_cons, List.filter_cons]
      simp
    · rcases List.mem_cons.mp hmem with he | hm
      · exact absurd (congrArg Prod.fst he.symm) hyt
      · rw [setCmd, List.map_cons, if_neg hyt, ← setCmd]
        rw [List.filter_cons, List.filter_cons]
        cases hn : y.2.isNone <;> simp only [hn, if_true, if_false,
          Bool.false_eq_true, List.length_cons] <;> have := ih hnd'.2 hm <;> omega

theorem setCmd_length (r : List (String × Option String)) (t cmd : String) :
    (setCmd r t cmd).length = r.length := by
  rw [setCmd, List.length_map]

theorem removeRun_length_lt {r : List (String × Option String)} {t : String}
    {c : Option String} (hmem : (t, c) ∈ r) :
    (removeRun r t).length < r.length := by
  induction r with
  | nil => cases hmem
  | cons y rest ih =>
    rw [removeRun, List.filter_cons]
    by_cases hyt : y.1 = t
    · rw [show (y.1 != t) = false by simp [hyt], if_neg (by simp)]
      have : (List.filter (fun x => x.1 != t) rest).length ≤ rest.length :=
        (List.filter_sublist _).length_le
      simp only [List.length_cons]
      omega
    · rcases List.mem_cons.mp hmem with he | hm
      · exact absurd (congrArg Prod.fst he.symm) hyt
      · rw [show (y.1 != t) = true by simp [hyt], if_pos rfl]
        simp only [List.length_cons]
        exact Nat.succ_lt_succ (ih hm)

theorem removeRun_isNone_le (r : List (String × Option String)) (t : String) :
    ((removeRun r t).filter (fun x => x.2.isNone)).length ≤
      (r.filter (fun x => x.2.isNone)).length :=
  (List.Sublist.filter _ (List.filter_sublist _)).length_le

/-- Every step strictly decreases the measure: the driver loop of a validated
pipeline terminates. -/
theorem step_measure {p : Pipeline} {s s' : ExecState} (hu : UniqueNames p)
    (hr : Reach p s) (hstep : Step p s s') :
    runMeasure p s' < runMeasure p s := by
  have inv := invReach hu hr
  have hnames : (taskNames p.tasks).Nodup := hu
  cases hstep with
  | snapshot t td perm hab hrun hfind hperm =>
    have h1 := @setCmd_isNone_count s.running t
      (interpolate_command td.run perm s.varsM) inv.runKeys hrun
    show 2 * ((taskNames p.tasks).filter (fun n => decide (n ∉ s.dispatched))).length +
        (setCmd s.running t (interpolate_command td.run perm s.varsM)).length +
        ((setCmd s.running t (interpolate_command td.run perm s.varsM)).filter
          (fun x => x.2.isNone)).length <
      2 * ((taskNames p.tasks).filter (fun n => decide (n ∉ s.dispatched))).length +
        s.running.length + (s.running.filter (fun x => x.2.isNone)).length
    rw [setCmd_length]
    omega
  | completeOk t cmd stdout stderr st ts iso hab hrun =>
    set s1 : ExecState :=
      { s with
        artifacts := s.artifacts ++
          [(sanitize_filename t ++ "_" ++ ts ++ ".log",
              logSummary t cmd st.code stdout stderr),
            (sanitize_filename t ++ "_" ++ ts ++ ".json",
              jsonManifest t cmd st.code iso)]
        outputs := s.outputs ++ [(t, stdout)]
        resultsList := s.resultsList ++ [(t, cmd, stdout, stderr)]
        running := removeRun s.running t } with hs1
    have hstepeq : stepOk p s t cmd stdout stderr st ts iso =
        if st.success = false ∧ stopOf p = true then { s1 with aborted := true }
        else (adjOf p.tasks t).foldl (releaseDep p.tasks) s1 := by
      rw [stepOk]
    rw [hstepeq]
    have hrml := removeRun_length_lt hrun
    have hrmn := removeRun_isNone_le s.running t
    by_cases hcond : st.success = false ∧ stopOf p = true
    · rw [if_pos hcond]
      show 2 * ((taskNames p.tasks).filter (fun n => decide (n ∉ s.dispatched))).length +
          (removeRun s.running t).length +
          ((removeRun s.running t).filter (fun x => x.2.isNone)).length <
        2 * ((taskNames p.tasks).filter (fun n => decide (n ∉ s.dispatched))).length +
          s.running.length + (s.running.filter (fun x => x.2.isNone)).length
      omega
    · rw [if_neg hcond]
      set L := adjOf p.tasks t with hL
      have hLnames : ∀ d ∈ L, d ∈ taskNames p.tasks :=
        fun d hd => adjOf_mem_names hd
      have htnotout : t ∉ s.outputs.map Prod.fst := by
        intro habs
        obtain ⟨kv, hkv, hk⟩ := List.mem_map.mp habs
        exact inv.outNotRun kv hkv (hk ▸ List.mem_map.mpr ⟨_, hrun, rfl⟩)
      have hlookt : List.lookup t s.outputs = none :=
        (lookup_eq_none_iff _ _).mpr htnotout
      have hLcount : ∀ d ∈ L, L.count d ≤ s1.indeg d := by
        intro d hd
        have hdn : d ∈ taskNames p.tasks := hLnames d hd
        have hcnt : L.count d = (depsOf p.tasks d).count t := adjOf_count hnames
        have hle : (depsOf p.tasks d).count t ≤
            (depsOf p.tasks d).countP (fun x => (List.lookup x s.outputs).isNone) := by
          apply count_le_countP
          show (List.lookup t s.outputs).isNone = true
          rw [hlookt]
          rfl
        have hindeg := inv.indegInv hab d hdn
        have hs1i : s1.indeg d = s.indeg d := rfl
        omega
      obtain ⟨news, h1, h2, h3, h4, h5, h6, h7, h8, h9, h10⟩ :=
        releaseFold p.tasks L s1 hLnames hLcount
      have hnewsNotDisp : ∀ n ∈ news, n ∉ s.dispatched := by
        intro n hn hdisp
        obtain ⟨hpos, heq⟩ := (h10 n).mp hn
        have hs1i : s1.indeg n = s.indeg n := rfl
        have hdone : (depsOf p.tasks n).countP
            (fun x => (List.lookup x s.outputs).isNone) = 0 := by
          rw [List.countP_eq_zero]
          intro x hx
          obtain ⟨o, ho⟩ := inv.dispDeps n hdisp x hx
          cases hlx : List.lookup x s.outputs with
          | none =>
            exact absurd (List.mem_map.mpr ⟨(x, o), ho, rfl⟩)
              ((lookup_eq_none_iff _ _).mp hlx)
          | some v => simp
        have hindeg := inv.indegInv hab n
          (hLnames n (List.count_pos_iff_mem.mp hpos))
        omega
      have hnewsNames : ∀ n ∈ news, n ∈ taskNames p.tasks := by
        intro n hn
        obtain ⟨hpos, _⟩ := (h10 n).mp hn
        exact hLnames n (List.count_pos_iff_mem.mp hpos)
      -- undispatched count drops by at least |news|
      have hundisp : ((taskNames p.tasks).filter
            (fun n => decide (n ∉ (s.dispatched ++ news)))).length + news.length ≤
          ((taskNames p.tasks).filter (fun n => decide (n ∉ s.dispatched))).length := by
        have hsplit := countP_split_pred (taskNames p.tasks)
          (fun n => decide (n ∉ s.dispatched)) (fun n => decide (n ∈ news))
        rw [List.countP_eq_length_filter] at hsplit
        have he1 : (taskNames p.tasks).countP
            (fun x => decide (x ∉ s.dispatched) && decide (x ∈ news)) =
            ((taskNames p.tasks).filter (fun x => decide (x ∈ news))).length := by
          rw [← List.countP_eq_length_filter]
          apply List.countP_congr
          intro x _
          constructor
          · intro hx
            have hx2 : x ∉ s.dispatched ∧ x ∈ news := by simpa using hx
            simpa using hx2.2
          · intro hx
            have hxn : x ∈ news := by simpa using hx
            have : x ∉ s.dispatched := hnewsNotDisp x hxn
            simp [this, hxn]
        have he2 : (taskNames p.tasks).countP
            (fun x => decide (x ∉ s.dispatched) && !decide (x ∈ news)) =
            ((taskNames p.tasks).filter
              (fun n => decide (n ∉ (s.dispatched ++ news)))).length := by
          rw [← List.countP_eq_length_filter]
          apply List.countP_congr
          intro x _
          constructor
          · intro hx
            have hx' := by simpa using hx
            simp only [decide_eq_true_eq]
            rw [List.mem_append]
            push_neg
            exact ⟨hx'.1, hx'.2⟩
          · intro hx
            have hx' : ¬ (x ∈ s.dispatched ∨ x ∈ news) := by
              simpa [List.mem_append] using hx
            push_neg at hx'
            simp [hx'.1, hx'.2]
        have hge : news.length ≤
            ((taskNames p.tasks).filter (fun x => decide (x ∈ news))).length := by
          apply List.Subperm.length_le
          apply List.subperm_of_subset h9
          intro n hn
          exact List.mem_filter.mpr ⟨hnewsNames n hn, by simpa using hn⟩
        omega
      have hrunlen : (L.foldl (releaseDep p.tasks) s1).running.length =
          (removeRun s.running t).length + news.length := by
        rw [h8]
        show (removeRun s.running t ++ news.map (fun n => (n, none))).length = _
        rw [List.length_append, List.length_map]
      have hrunnone : ((L.foldl (releaseDep p.tasks) s1).running.filter
            (fun x => x.2.isNone)).length ≤
          ((removeRun s.running t).filter (fun x => x.2.isNone)).length +
            news.length := by
        rw [h8]
        show ((removeRun s.running t ++
            news.map (fun n => ((n, none) : String × Option String))).filter
          (fun x => x.2.isNone)).length ≤
          ((removeRun s.running t).filter (fun x => x.2.isNone)).length + news.length
        rw [List.filter_append, List.length_append]
        have : ((news.map (fun n => ((n, none) : String × Option String))).filter
            (fun x => x.2.isNone)).length ≤ news.length := by
          calc _ ≤ (news.map (fun n => ((n, none) : String × Option String))).length :=
                (List.filter_sublist _).length_le
            _ = news.length := List.length_map _ _
        omega
      rw [runMeasure, runMeasure, h7, hrunlen]
      have hse : s1.dispatched = s.dispatched := rfl
      rw [hse] at hundisp ⊢
      omega
  | completeErr t cmd msg hab hrun =>
    have h1 := removeRun_length_lt hrun
    have h2 := removeRun_isNone_le s.running t
    show 2 * ((taskNames p.tasks).filter (fun n => decide (n ∉ s.dispatched))).length +
        (removeRun s.running t).length +
        ((removeRun s.running t).filter (fun x => x.2.isNone)).length <
      2 * ((taskNames p.tasks).filter (fun n => decide (n ∉ s.dispatched))).length +
        s.running.length + (s.running.filter (fun x => x.2.isNone)).length
    omega

theorem releaseFold_aborted (tasks : List TaskDef) :
    ∀ (L : List String) (s : ExecState),
    (L.foldl (releaseDep tasks) s).aborted = s.aborted := by
  intro L
  induction L with
  | nil => intro s; rfl
  | cons d rest ih =>
    intro s
    rw [List.foldl_cons, ih]
    rw [releaseDep]
    by_cases h1 : d ∈ taskNames tasks
    · rw [if_pos h1]
      by_cases h2 : s.indeg d - 1 = 0
      · rw [if_pos h2]
      · rw [if_neg h2]
    · rw [if_neg h1]

theorem stepOk_aborted (p : Pipeline) (s : ExecState) (t cmd stdout stderr : String)
    (st : ExitSt) (ts iso : String) :
    (stepOk p s t cmd stdout stderr st ts iso).aborted =
      (if st.success = false ∧ stopOf p = true then true else s.aborted) := by
  rw [stepOk]
  by_cases hcond : st.success = false ∧ stopOf p = true
  · rw [if_pos hcond, if_pos hcond]
  · rw [if_neg hcond, if_neg hcond, releaseFold_aborted]

/-- Attempt loop of `spawn_task_future` (`executor.rs` lines 210-228):
`attempt` is the number of backend invocations already made; the loop body
increments it, invokes the backend, returns any `Ok` result immediately, and
on `Err` retries while `attempt <= retries`, else returns the error.
`behav i` is the adversarial outcome of the i-th invocation of
`backend.run`.  Returns the total number of invocations and the final
outcome. -/
def attemptGo (behav : Nat → Except String (String × String × ExitSt))
    (retries : Nat) (attempt : Nat) :
    Nat × Except String (String × String × ExitSt) :=
  match behav (attempt + 1) with
  | .ok r => (attempt + 1, .ok r)
  | .error e =>
    if attempt + 1 ≤ retries then attemptGo behav retries (attempt + 1)
    else (attempt + 1, .error e)
termination_by retries + 1 - attempt
decreasing_by omega

/-- The whole attempt loop: `attempt` starts at 0 (`let mut attempt = 0u32`). -/
def attemptLoop (behav : Nat → Except String (String × String × ExitSt))
    (retries : Nat) : Nat × Except String (String × String × ExitSt) :=
  attemptGo behav retries 0

/-- Outcome of `main`'s dispatch on `argv` (`main.rs` lines 17-29 and
`cli.rs` lines 8-18): with fewer than three entries `get_opts` prints a usage
line and exits with status 1; otherwise `argv[1]` selects the subcommand. -/
inductive CliOutcome where
  | usage
  | runCmd (path : String)
  | validateCmd (path : String)
  | unknown (sub : String)
deriving DecidableEq, Repr

/-- Dispatch of `main` over `argv` (`args[0]` is the program name). -/
def mainOutcome (args : List String) : CliOutcome :=
  match args with
  | _ :: a1 :: a2 :: _ =>
    if a1 = "run" then .runCmd a2
    else if a1 = "validate" then .validateCmd a2
    else .unknown a1
  | _ => .usage

/-- Process exit status for the outcomes that do not run a pipeline:
`usage` calls `process::exit(1)`; an unknown subcommand only prints to stderr
and `main` then returns `Ok(())`, so the process exits with status 0.
`run`/`validate` exit codes depend on the pipeline and are `none` here. -/
def cliExitCode : CliOutcome → Option Nat
  | .usage => some 1
  | .unknown _ => some 0
  | _ => none

/-- Message printed to stderr by each non-dispatching outcome (`cli.rs` line
11, `main.rs` line 27). -/
def cliStderr : CliOutcome → Option String
  | .usage => some "Usage: rustypipe <run|validate> <pipeline.yaml>"
  | .unknown sub => some ("Unknown subcommand: " ++ sub ++ " (supported: run, validate)")
  | _ => none

/-- Split a character list at newlines. -/
def splitLines : Str → List Str
  | [] => [[]]
  | c :: rest =>
    if c = '\n' then [] :: splitLines rest
    else
      match splitLines rest with
      | [] => [[c]]
      | l :: ls => (c :: l) :: ls

/-- Modelled from the spec: `serde_yaml::from_str` for the pipeline document
(library code, absent from `src/`).  Only the fragment needed here is
modelled, faithful to YAML: blank lines and lines starting with `#` are
comments and are ignored, and a document whose single significant line is
`tasks: []` denotes a pipeline with no name, no concurrency cap, no
stop_on_fail flag and an empty task list. -/
def parsePipelineDoc (s : String) : Option Pipeline :=
  let lines := (splitLines s.data).filter
    (fun l => !(l.isEmpty || l.head? = some '#'))
  if lines = ["tasks: []".data] then some ⟨none, none, none, []⟩
  else none

/-- Comparison definition from the specification's words ("leading and
trailing ASCII whitespace stripped"): the outputs pass of `interpolate` with
ASCII-only trimming, to compare against the source's Unicode `str::trim`. -/
def outsStepAscii (s : Str) (kv : String × String) : Str :=
  replaceAll ("\x7b\x7b".data ++ kv.1.data ++ ".output \x7d\x7d".data)
    (asciiTrim kv.2.data)
    (replaceAll ("\x7b\x7b".data ++ kv.1.data ++ ".output\x7d\x7d".data)
      (asciiTrim kv.2.data) s)

/-- Comparison definition from the specification's words: `interpolate` as
the spec describes it, with ASCII trimming of outputs. -/
def interpolateAsciiSpec (template : String)
    (outputs vars : List (String × String)) : String :=
  ⟨removeTokens (outputs.foldl outsStepAscii (vars.foldl varsStep template.data))⟩

theorem attemptGo_ok {behav : Nat → Except String (String × String × ExitSt)}
    {retries attempt : Nat} {r : String × String × ExitSt}
    (h : behav (attempt + 1) = .ok r) :
    attemptGo behav retries attempt = (attempt + 1, .ok r) := by
  rw [attemptGo, h]

theorem attemptGo_error {behav : Nat → Except String (String × String × ExitSt)}
    {retries attempt : Nat} {e : String}
    (h : behav (attempt + 1) = .error e) :
    attemptGo behav retries attempt =
      (if attempt + 1 ≤ retries then attemptGo behav retries (attempt + 1)
       else (attempt + 1, .error e)) := by
  rw [attemptGo, h]

theorem attemptGo_le (behav : Nat → Except String (String × String × ExitSt))
    (retries : Nat) : ∀ m attempt, retries - attempt ≤ m → attempt ≤ retries →
    (attemptGo behav retries attempt).1 ≤ retries + 1 := by
  intro m
  induction m with
  | zero =>
    intro attempt hm hle
    have : attempt = retries := by omega
    subst this
    cases hbe : behav (attempt + 1) with
    | ok r => rw [attemptGo_ok hbe]
    | error e =>
      rw [attemptGo_error hbe, if_neg (by omega)]
  | succ m ih =>
    intro attempt hm hle
    cases hbe : behav (attempt + 1) with
    | ok r =>
      rw [attemptGo_ok hbe]
      omega
    | error e =>
      rw [attemptGo_error hbe]
      by_cases h2 : attempt + 1 ≤ retries
      · rw [if_pos h2]
        exact ih (attempt + 1) (by omega) h2
      · rw [if_neg h2]
        omega

theorem attemptGo_allfail (behav : Nat → Except String (String × String × ExitSt))
    (retries : Nat) : ∀ m attempt, retries - attempt ≤ m → attempt ≤ retries →
    (∀ i, attempt < i → i ≤ retries + 1 → ∃ e, behav i = .error e) →
    attemptGo behav retries attempt = (retries + 1, behav (retries + 1)) := by
  intro m
  induction m with
  | zero =>
    intro attempt hm hle hfail
    have heq : attempt = retries := by omega
    subst heq
    obtain ⟨e, he⟩ := hfail (attempt + 1) (by omega) (by omega)
    rw [attemptGo_error he, if_neg (by omega), he]
  | succ m ih =>
    intro attempt hm hle hfail
    by_cases heq : attempt = retries
    · subst heq
      obtain ⟨e, he⟩ := hfail (attempt + 1) (by omega) (by omega)
      rw [attemptGo_error he, if_neg (by omega), he]
    · obtain ⟨e, he⟩ := hfail (attempt + 1) (by omega) (by omega)
      rw [attemptGo_error he, if_pos (by omega)]
      exact ih (attempt + 1) (by omega) (by omega)
        (fun i h1 h2 => hfail i (by omega) h2)

theorem attemptGo_firstok (behav : Nat → Except String (String × String × ExitSt))
    (retries : Nat) {k : Nat} {r : String × String × ExitSt} :
    ∀ m attempt, retries - attempt ≤ m → attempt < k → k ≤ retries + 1 →
    behav k = .ok r →
    (∀ i, attempt < i → i < k → ∃ e, behav i = .error e) →
    attemptGo behav retries attempt = (k, .ok r) := by
  intro m
  induction m with
  | zero =>
    intro attempt hm hlt hk hok hfail
    have hkeq : k = attempt + 1 := by omega
    subst hkeq
    rw [attemptGo_ok hok]
  | succ m ih =>
    intro attempt hm hlt hk hok hfail
    by_cases hkeq : k = attempt + 1
    · subst hkeq
      rw [attemptGo_ok hok]
    · obtain ⟨e, he⟩ := hfail (attempt + 1) (by omega) (by omega)
      rw [attemptGo_error he, if_pos (by omega)]
      exact ih (attempt + 1) (by omega) (by omega) hk hok
        (fun i h1 h2 => hfail i (by omega) h2)

theorem checkCycles_not_fuelOut (p : Pipeline) (hu : UniqueNames p) :
    checkCyclesGo (adjOf p.tasks) (p.tasks.length + 1) p.tasks (fun _ => 0) ≠
      .error .fuelOut := by
  intro hres
  refine absurd hres (@ccgFuel (adjOf p.tasks) (p.tasks.length + 1)
    (p.tasks.map (fun t => t.name)) p.tasks (fun _ => 0)
    (show (p.tasks.map (fun t => t.name)).Nodup from hu) ?_ ?_
    (fun x => Nat.zero_le 2) ?_)
  · intro x y hy
    exact adjOf_mem_names hy
  · intro t ht
    exact List.mem_map.mpr ⟨t, ht, rfl⟩
  · have h1 := whiteCount_le_length (p.tasks.map (fun t => t.name)) (fun _ => 0)
    rw [List.length_map] at h1
    omega

/-- A two-task pipeline `a ← b` (task `b` depends on task `a`); `stop_on_fail`
is absent, so it defaults to `false`. -/
def taskA : TaskDef := ⟨"a", [], "echo A", none, none, none, none, none⟩

/-- The dependent task of `pAB`. -/
def taskB : TaskDef := ⟨"b", ["a"], "echo B", none, none, none, none, none⟩

/-- The pipeline `a ← b` with `stop_on_fail` unset (false). -/
def pAB : Pipeline := ⟨none, none, none, [taskA, taskB]⟩

/-- A single task carrying `continue_on_fail: true`. -/
def taskCof : TaskDef := ⟨"t", [], "false", none, none, none, none, some true⟩

/-- A one-task pipeline with `stop_on_fail: true` whose task opts into
`continue_on_fail: true`. -/
def pCof : Pipeline := ⟨none, none, some true, [taskCof]⟩

/-- Producer task of `pTD`. -/
def taskT : TaskDef := ⟨"a", [], "echo hi", none, none, none, none, none⟩

/-- Consumer task of `pTD`: its template is exactly the output token of `a`. -/
def taskD : TaskDef := ⟨"b", ["a"], "\x7b\x7ba.output\x7d\x7d", none, none, none, none, none⟩

/-- The pipeline `a ← b` where `b` interpolates `a`'s output. -/
def pTD : Pipeline := ⟨none, none, none, [taskT, taskD]⟩

/-- A single plain task. -/
def taskE : TaskDef := ⟨"t", [], "boom", none, none, none, none, none⟩

/-- A one-task pipeline with `stop_on_fail` unset (false). -/
def pE : Pipeline := ⟨none, none, none, [taskE]⟩

/-- A pipeline with a repeated task name. -/
def dupPipeline : Pipeline :=
  ⟨none, none, none,
    [⟨"a", [], "echo 1", none, none, none, none, none⟩,
     ⟨"a", [], "echo 2", none, none, none, none, none⟩]⟩

/-- Backend behaviour for the retry-loop witness: the first invocation is a
run-level failure, every later one ends with exit status 2 (a failure that is
not a run-level error). -/
def behavW : Nat → Except String (String × String × ExitSt) :=
  fun i => if i = 1 then .error "spawn failed" else .ok ("out", "", ⟨false, some 2⟩)

theorem evalTD : interpolate_command taskD.run [("a", "\u00A0x")] [] = "x" := by
  simp +decide [taskD, interpolate_command, interpolateCore, outsStep, varsStep,
    replaceAll.eq_def, removeTokens.eq_def, scanClose, uTrim, rustIsWhitespace]

theorem evalTDascii :
    interpolateAsciiSpec taskD.run [("a", "\u00A0x")] [] = "\u00A0x" := by
  simp +decide [taskD, interpolateAsciiSpec, outsStepAscii, varsStep,
    replaceAll.eq_def, removeTokens.eq_def, scanClose, asciiTrim, asciiIsWhitespace]

theorem evalNlTok : interpolate_command "\x7b\x7b\n\x7d\x7d" [] [] = "\x7b\x7b\n\x7d\x7d" := by
  simp +decide [interpolate_command, interpolateCore, outsStep, varsStep,
    replaceAll.eq_def, removeTokens.eq_def, scanClose]

theorem evalVarsNl :
    interpolate_command "\x7b\x7bvars.A\nB\x7d\x7d" [] [] = "\x7b\x7bvars.A\nB\x7d\x7d" := by
  simp +decide [interpolate_command, interpolateCore, outsStep, varsStep,
    replaceAll.eq_def, removeTokens.eq_def, scanClose]

theorem evalVarsOut :
    interpolate_command "\x7b\x7bvars.hello.output\x7d\x7d" [("vars.hello", "world")] [] =
      "world" := by
  simp +decide [interpolate_command, interpolateCore, outsStep, varsStep,
    replaceAll.eq_def, removeTokens.eq_def, scanClose, uTrim, rustIsWhitespace]

/-- Claim C3: for every pipeline `P`, `validate(P)` succeeds iff all task
names are unique, every dependency refers to a task of the same pipeline, and
the dependency graph is acyclic; on violation it fails fast with the kind of
the first violated check (duplicate name, then unknown dependency, then
cycle). -/
theorem claim_C3 (p : Pipeline) :
    (validate_pipeline p = .ok () ↔ UniqueNames p ∧ DepsExist p ∧ Acyclic p.tasks) ∧
    (¬ UniqueNames p → ∃ n, validate_pipeline p = .error (.duplicateName n)) ∧
    (UniqueNames p → ¬ DepsExist p →
      ∃ t d, validate_pipeline p = .error (.unknownDependency t d)) ∧
    (UniqueNames p → DepsExist p → ¬ Acyclic p.tasks →
      ∃ n, validate_pipeline p = .error (.cycleDetected n)) := by
  rcases checkDupNames_cases p.tasks [] with hdok | ⟨n, hderr⟩
  · have hu : UniqueNames p := validate_dup_phase.mp hdok
    rcases checkDeps_cases p.tasks (p.tasks.map (fun t => t.name)) with
      hpok | ⟨t, d, hperr⟩
    · have hd : DepsExist p := validate_deps_phase.mp hpok
      have hveq : validate_pipeline p =
          checkCyclesGo (adjOf p.tasks) (p.tasks.length + 1) p.tasks (fun _ => 0) := by
        rw [validate_pipeline, hdok, hpok]
      cases hcc : checkCyclesGo (adjOf p.tasks) (p.tasks.length + 1) p.tasks
          (fun _ => 0) with
      | ok u =>
        cases u
        have hac : Acyclic p.tasks := (checkCycles_ok_iff p hu).mp hcc
        refine ⟨⟨fun _ => ⟨hu, hd, hac⟩, fun _ => by rw [hveq, hcc]⟩,
          fun hnu => absurd hu hnu,
          fun _ hnd => absurd hd hnd,
          fun _ _ hnac => absurd hac hnac⟩
      | error e =>
        have hnac : ¬ Acyclic p.tasks := by
          intro hac
          rw [(checkCycles_ok_iff p hu).mpr hac] at hcc
          cases hcc
        rcases ccgErrShape p.tasks _ e hcc with ⟨m, rfl⟩ | rfl
        · refine ⟨⟨fun hok => ?_, fun hc => absurd hc.2.2 hnac⟩,
            fun hnu => absurd hu hnu,
            fun _ hnd => absurd hd hnd,
            fun _ _ _ => ⟨m, by rw [hveq, hcc]⟩⟩
          rw [hveq, hcc] at hok
          cases hok
        · exact absurd hcc (checkCycles_not_fuelOut p hu)
    · have hvu : validate_pipeline p = .error (.unknownDependency t d) := by
        rw [validate_pipeline, hdok, hperr]
      have hnd : ¬ DepsExist p := by
        intro hd
        rw [validate_deps_phase.mpr hd] at hperr
        cases hperr
      refine ⟨⟨fun hok => ?_, fun hc => absurd hc.2.1 hnd⟩,
        fun hnu => absurd hu hnu,
        fun _ _ => ⟨t, d, hvu⟩,
        fun _ hd _ => absurd hd hnd⟩
      rw [hvu] at hok
      cases hok
  · have hvu : validate_pipeline p = .error (.duplicateName n) := by
      rw [validate_pipeline, hderr]
    have hnu : ¬ UniqueNames p := by
      intro hu
      rw [validate_dup_phase.mpr hu] at hderr
      cases hderr
    refine ⟨⟨fun hok => ?_, fun hc => absurd hc.1 hnu⟩,
      fun _ => ⟨n, hvu⟩,
      fun hu _ => absurd hu hnu,
      fun hu _ _ => absurd hu hnu⟩
    rw [hvu] at hok
    cases hok

/-- Claim C3 witness: a pipeline repeating the task name `a` is not
`UniqueNames`, and `validate_pipeline` rejects it with a duplicate-name
error. -/
theorem claim_C3_witness :
    ¬ UniqueNames dupPipeline ∧
    ∃ n, validate_pipeline dupPipeline = .error (.duplicateName n) :=
  ⟨(by decide : ¬ (dupPipeline.tasks.map (fun t => t.name)).Nodup),
   (claim_C3 dupPipeline).2.1
     (by decide : ¬ (dupPipeline.tasks.map (fun t => t.name)).Nodup)⟩

/-- Claim C4 counterexample: a token whose interior spans a newline survives
`interpolate_command` unchanged — the sweep regex's `.` does not match `\n` —
so the result still contains a full `\x7b\x7b…\x7d\x7d` substring. -/
theorem claim_C4_cex :
    interpolate_command "\x7b\x7b\n\x7d\x7d" [] [] = "\x7b\x7b\n\x7d\x7d" ∧
    HasTok ("\x7b\x7b\n\x7d\x7d" : String).data :=
  ⟨evalNlTok, [], ['\n'], [], rfl⟩

/-- Claim C4 (amended): for every template containing no newline, against
maps whose substituted values (vars verbatim, outputs after trimming)
contain no newline, the string returned by `interpolate_command` contains no
`\x7b\x7b…\x7d\x7d` substring. -/
theorem claim_C4 (tpl : String) (outs vars : List (String × String))
    (h1 : '\n' ∉ tpl.data)
    (h2 : ∀ kv ∈ vars, '\n' ∉ (kv.2 : String).data)
    (h3 : ∀ kv ∈ outs, '\n' ∉ uTrim (kv.2 : String).data) :
    ¬ HasTok (interpolate_command tpl outs vars).data :=
  interpolate_command_no_token tpl outs vars h1 h2 h3

/-- Claim C4 witness: a newline-free template with an unmatched token, an
output entry and a vars entry; no token survives interpolation. -/
theorem claim_C4_witness :
    ¬ HasTok (interpolate_command "echo \x7b\x7bmissing\x7d\x7d"
      [("a", " hi ")] [("k", "v")]).data :=
  claim_C4 "echo \x7b\x7bmissing\x7d\x7d" [("a", " hi ")] [("k", "v")]
    (by decide) (by decide) (by decide)

/-- Claim C7: for a task with retry count `retries`, the attempt loop of
`spawn_task_future` invokes the backend at most `retries + 1` times; when
every invocation is a run-level failure it makes exactly `retries + 1`
attempts and returns the last error; an `Ok` result — whatever its exit
status — is returned immediately after the attempt that produced it and is
never retried. -/
theorem claim_C7 (behav : Nat → Except String (String × String × ExitSt))
    (retries : Nat) :
    (attemptLoop behav retries).1 ≤ retries + 1 ∧
    ((∀ i, 1 ≤ i → i ≤ retries + 1 → ∃ e, behav i = .error e) →
      attemptLoop behav retries = (retries + 1, behav (retries + 1))) ∧
    (∀ k r, behav k = .ok r → (∀ i, 1 ≤ i → i < k → ∃ e, behav i = .error e) →
      1 ≤ k → k ≤ retries + 1 → attemptLoop behav retries = (k, .ok r)) := by
  refine ⟨attemptGo_le behav retries retries 0 (by omega) (by omega), ?_, ?_⟩
  · intro hfail
    exact attemptGo_allfail behav retries retries 0 (by omega) (by omega)
      (fun i hi1 hi2 => hfail i (by omega) hi2)
  · intro k r hok hfail h1 h2
    exact attemptGo_firstok behav retries retries 0 (by omega) (by omega) h2 hok
      (fun i hi1 hi2 => hfail i (by omega) hi2)

/-- Claim C7 witness: with `retries = 2`, a run-level failure on the first
invocation followed by a non-zero-exit `Ok` on the second: two invocations in
total, and the attempt loop returns the `Ok` result immediately. -/
theorem claim_C7_witness :
    attemptLoop behavW 2 = (2, .ok ("out", "", ⟨false, some 2⟩)) :=
  (claim_C7 behavW 2).2.2 2 ("out", "", ⟨false, some 2⟩) rfl
    (fun i hi1 hi2 => ⟨"spawn failed", by
      have hieq : i = 1 := by omega
      subst hieq
      rfl⟩)
    (by omega) (by omega)

/-- Claim C9 counterexample: a vars token spanning a newline survives the
terminal sweep unchanged, and a vars token whose `NAME` ends in `.output`
collides with the outputs pass when a task is named `vars.hello` and is
substituted rather than removed. -/
theorem claim_C9_cex :
    interpolate_command "\x7b\x7bvars.A\nB\x7d\x7d" [] [] = "\x7b\x7bvars.A\nB\x7d\x7d" ∧
    interpolate_command "\x7b\x7bvars.hello.output\x7d\x7d" [("vars.hello", "world")] [] =
      "world" :=
  ⟨evalVarsNl, evalVarsOut⟩

/-- Claim C9 (amended): the vars map is created empty and never written — in
every reachable state `varsM = []`, and the vars pass over an empty map is
the identity — and for a newline-free template whose trimmed outputs bring in
no newline, no `\x7b\x7bvars.NAME\x7d\x7d` token remains in the interpolated
command. -/
theorem claim_C9 :
    (∀ (p : Pipeline) (s : ExecState), UniqueNames p → Reach p s → s.varsM = []) ∧
    (∀ tpl : Str, List.foldl varsStep tpl ([] : List (String × String)) = tpl) ∧
    (∀ (tpl : String) (outs : List (String × String)), '\n' ∉ tpl.data →
      (∀ kv ∈ outs, '\n' ∉ uTrim (kv.2 : String).data) →
      ∀ NAME : Str, ¬ ∃ a b : Str, (interpolate_command tpl outs []).data =
        a ++ ('\x7b' :: '\x7b' :: ("vars.".data ++ NAME ++ ['\x7d', '\x7d'])) ++ b) := by
  refine ⟨fun p s hu hr => (invReach hu hr).varsNil, fun tpl => rfl, ?_⟩
  rintro tpl outs h1 h3 NAME ⟨a, b, heq⟩
  apply interpolate_command_no_token tpl outs [] h1
    (fun kv hkv => absurd hkv (List.not_mem_nil _)) h3
  refine ⟨a, "vars.".data ++ NAME, b, ?_⟩
  rw [heq]
  simp [List.append_assoc]

/-- Claim C9 witness: no `\x7b\x7bvars.X\x7d\x7d` token remains after
interpolating a template that contains one. -/
theorem claim_C9_witness :
    ¬ ∃ a b : Str, (interpolate_command "echo \x7b\x7bvars.X\x7d\x7d" [] []).data =
      a ++ ('\x7b' :: '\x7b' :: ("vars.".data ++ "X".data ++ ['\x7d', '\x7d'])) ++ b :=
  claim_C9.2.2 "echo \x7b\x7bvars.X\x7d\x7d" [] (by decide)
    (fun kv hkv => absurd hkv (List.not_mem_nil _)) "X".data

/-- Claim C10: with at least three argv entries and an unknown subcommand,
`main` prints `Unknown subcommand: … (supported: run, validate)` to stderr
and falls through to `Ok(())`, so the process exits with status 0. -/
theorem claim_C10 (a0 a1 a2 : String) (rest : List String)
    (h1 : a1 ≠ "run") (h2 : a1 ≠ "validate") :
    mainOutcome (a0 :: a1 :: a2 :: rest) = .unknown a1 ∧
    cliExitCode (mainOutcome (a0 :: a1 :: a2 :: rest)) = some 0 ∧
    cliStderr (mainOutcome (a0 :: a1 :: a2 :: rest)) =
      some ("Unknown subcommand: " ++ a1 ++ " (supported: run, validate)") := by
  have hm : mainOutcome (a0 :: a1 :: a2 :: rest) = .unknown a1 := by
    show (if a1 = "run" then CliOutcome.runCmd a2
      else if a1 = "validate" then CliOutcome.validateCmd a2
      else CliOutcome.unknown a1) = CliOutcome.unknown a1
    rw [if_neg h1, if_neg h2]
  exact ⟨hm, by rw [hm]; rfl, by rw [hm]; rfl⟩

/-- Claim C10 witness: `rustypipe deploy p.yaml` is an unknown subcommand:
exit status 0 with the message on stderr. -/
theorem claim_C10_witness :
    mainOutcome ["rustypipe", "deploy", "p.yaml"] = .unknown "deploy" ∧
    cliExitCode (mainOutcome ["rustypipe", "deploy", "p.yaml"]) = some 0 ∧
    cliStderr (mainOutcome ["rustypipe", "deploy", "p.yaml"]) =
      some ("Unknown subcommand: " ++ "deploy" ++ " (supported: run, validate)") :=
  claim_C10 "rustypipe" "deploy" "p.yaml" [] (by decide) (by decide)

/-- Claim C1 (amended): with `stop_on_fail = false`, a task completing with a
failing (non-zero) exit status is handled exactly like a success: its result
is recorded, the run does not abort, each dependent's indegree is decremented
once per declared edge, dependents whose indegree is consumed to zero are
dispatched, and the driver's termination measure still decreases. -/
theorem claim_C1 (p : Pipeline) (hu : UniqueNames p) (s : ExecState)
    (hr : Reach p s) (t cmd stdout stderr : String) (st : ExitSt) (ts iso : String)
    (hab : s.aborted = false) (hrun : (t, some cmd) ∈ s.running)
    (hfail : st.success = false) (hstop : stopOf p = false) :
    (∀ d, (stepOk p s t cmd stdout stderr st ts iso).indeg d =
      s.indeg d - (adjOf p.tasks t).count d) ∧
    (∀ d, 0 < (adjOf p.tasks t).count d →
      s.indeg d = (adjOf p.tasks t).count d →
      d ∈ (stepOk p s t cmd stdout stderr st ts iso).dispatched ∧
      (d, none) ∈ (stepOk p s t cmd stdout stderr st ts iso).running) ∧
    (stepOk p s t cmd stdout stderr st ts iso).resultsList =
      s.resultsList ++ [(t, cmd, stdout, stderr)] ∧
    (stepOk p s t cmd stdout stderr st ts iso).aborted = false ∧
    runMeasure p (stepOk p s t cmd stdout stderr st ts iso) < runMeasure p s := by
  have inv := invReach hu hr
  have hnames : (taskNames p.tasks).Nodup := hu
  have htkey : t ∈ s.running.map Prod.fst := List.mem_map.mpr ⟨_, hrun, rfl⟩
  have htnotout : t ∉ s.outputs.map Prod.fst := by
    intro habs
    obtain ⟨kv, hkv, hk⟩ := List.mem_map.mp habs
    exact inv.outNotRun kv hkv (hk ▸ htkey)
  have hlookt : List.lookup t s.outputs = none :=
    (lookup_eq_none_iff _ _).mpr htnotout
  set s1 : ExecState :=
    { s with
      artifacts := s.artifacts ++
        [(sanitize_filename t ++ "_" ++ ts ++ ".log",
            logSummary t cmd st.code stdout stderr),
          (sanitize_filename t ++ "_" ++ ts ++ ".json",
            jsonManifest t cmd st.code iso)]
      outputs := s.outputs ++ [(t, stdout)]
      resultsList := s.resultsList ++ [(t, cmd, stdout, stderr)]
      running := removeRun s.running t } with hs1
  have hcond : ¬ (st.success = false ∧ stopOf p = true) := by
    rintro ⟨-, habs⟩
    rw [hstop] at habs
    cases habs
  have hstepeq0 : stepOk p s t cmd stdout stderr st ts iso =
      if st.success = false ∧ stopOf p = true then { s1 with aborted := true }
      else (adjOf p.tasks t).foldl (releaseDep p.tasks) s1 := by
    rw [stepOk]
  have hstepeq : stepOk p s t cmd stdout stderr st ts iso =
      (adjOf p.tasks t).foldl (releaseDep p.tasks) s1 := by
    rw [hstepeq0, if_neg hcond]
  set L := adjOf p.tasks t with hL
  have hLnames : ∀ d ∈ L, d ∈ taskNames p.tasks := fun d hd => adjOf_mem_names hd
  have hLcount : ∀ d ∈ L, L.count d ≤ s1.indeg d := by
    intro d hd
    have hdn : d ∈ taskNames p.tasks := hLnames d hd
    have hcnt : L.count d = (depsOf p.tasks d).count t := adjOf_count hnames
    have hle : (depsOf p.tasks d).count t ≤
        (depsOf p.tasks d).countP (fun x => (List.lookup x s.outputs).isNone) := by
      apply count_le_countP
      rw [hlookt]
      rfl
    have hindeg : s1.indeg d = (depsOf p.tasks d).countP
        (fun x => (List.lookup x s.outputs).isNone) := inv.indegInv hab d hdn
    omega
  obtain ⟨news, h1, h2, h3, h4, h5, h6, h7, h8, h9, h10⟩ :=
    releaseFold p.tasks L s1 hLnames hLcount
  refine ⟨?_, ?_, ?_, ?_,
    step_measure hu hr (Step.completeOk s t cmd stdout stderr st ts iso hab hrun)⟩
  · intro d
    rw [hstepeq, h6]
  · intro d hpos heq
    have hdnews : d ∈ news := (h10 d).mpr ⟨hpos, heq⟩
    constructor
    · rw [hstepeq, h7]
      exact List.mem_append.mpr (Or.inr hdnews)
    · rw [hstepeq, h8]
      exact List.mem_append.mpr (Or.inr (List.mem_map.mpr ⟨d, hdnews, rfl⟩))
  · rw [hstepeq, h3]
  · rw [hstepeq, h5]
    exact hab

/-- Claim C1 witness: in `pAB` (`stop_on_fail` false), after task `a`
completes with exit code 1, its dependent `b` is dispatched and in flight. -/
theorem claim_C1_witness :
    ∃ (s : ExecState) (cmd : String), Reach pAB s ∧
      "b" ∈ (stepOk pAB s "a" cmd "oops" "" ⟨false, some 1⟩ "TS" "ISO").dispatched ∧
      ("b", none) ∈ (stepOk pAB s "a" cmd "oops" "" ⟨false, some 1⟩ "TS" "ISO").running := by
  have h0 : Reach pAB (initState pAB) := Reach.init
  have h1 := Reach.step h0 (Step.snapshot (initState pAB) "a" taskA []
    rfl (List.mem_singleton.mpr rfl) (by decide) List.Perm.nil)
  have hc := claim_C1 pAB
    (by decide : (pAB.tasks.map (fun t => t.name)).Nodup) _ h1 "a"
    (interpolate_command taskA.run [] (initState pAB).varsM) "oops" ""
    ⟨false, some 1⟩ "TS" "ISO" rfl (List.mem_singleton.mpr rfl) rfl rfl
  obtain ⟨hdisp, hrunb⟩ := hc.2.1 "b" (by decide) (by decide)
  exact ⟨_, _, h1, hdisp, hrunb⟩

/-- Claim C1 counterexample: in `pAB` (`stop_on_fail` false), task `a`
completes with exit code 1 — a failure — yet its dependent `b` has its
indegree decremented to zero and is dispatched, refuting "the indegrees of
its dependents are never decremented to zero and those dependents are never
dispatched". -/
theorem claim_C1_cex :
    stopOf pAB = false ∧ taskB.depends_on = ["a"] ∧
    ∃ (s : ExecState) (cmd : String), Reach pAB s ∧ s.aborted = false ∧
      ("a", some cmd) ∈ s.running ∧
      Reach pAB (stepOk pAB s "a" cmd "oops" "" ⟨false, some 1⟩ "TS" "ISO") ∧
      (stepOk pAB s "a" cmd "oops" "" ⟨false, some 1⟩ "TS" "ISO").indeg "b" = 0 ∧
      "b" ∈ (stepOk pAB s "a" cmd "oops" "" ⟨false, some 1⟩ "TS" "ISO").dispatched ∧
      ("b", none) ∈ (stepOk pAB s "a" cmd "oops" "" ⟨false, some 1⟩ "TS" "ISO").running ∧
      (stepOk pAB s "a" cmd "oops" "" ⟨false, some 1⟩ "TS" "ISO").aborted = false := by
  refine ⟨rfl, rfl, ?_⟩
  have h0 : Reach pAB (initState pAB) := Reach.init
  have h1 := Reach.step h0 (Step.snapshot (initState pAB) "a" taskA []
    rfl (List.mem_singleton.mpr rfl) (by decide) List.Perm.nil)
  exact ⟨_, _, h1, rfl, List.mem_singleton.mpr rfl,
    Reach.step h1 (Step.completeOk _ "a" _ "oops" "" ⟨false, some 1⟩ "TS" "ISO"
      rfl (List.mem_singleton.mpr rfl)),
    by decide, by decide, by decide, rfl⟩

/-- The pipeline with every task's `continue_on_fail` rewritten by `f` and
everything else unchanged. -/
def setCof (p : Pipeline) (f : TaskDef → Option Bool) : Pipeline :=
  { p with
    tasks := p.tasks.map (fun td => { td with continue_on_fail := f td }) }

/-- Claim C2 (amended): with `stop_on_fail = true` the run aborts on every
failed completion regardless of the task's `continue_on_fail` (the field is
parsed but never read): an `Ok` completion aborts iff the exit status failed
under `stop_on_fail`, an `Err` completion aborts iff `stop_on_fail` is set,
no step leaves an aborted state, and rewriting every task's
`continue_on_fail` never changes whether a completion aborts. -/
theorem claim_C2 :
    (∀ (p : Pipeline) (s : ExecState) (t cmd stdout stderr : String) (st : ExitSt)
        (ts iso : String),
      (stepOk p s t cmd stdout stderr st ts iso).aborted =
        (if st.success = false ∧ stopOf p = true then true else s.aborted)) ∧
    (∀ (p : Pipeline) (s : ExecState) (t : String),
      (stepErr p s t).aborted = stopOf p) ∧
    (∀ (p : Pipeline) (s s' : ExecState), s.aborted = true → ¬ Step p s s') ∧
    (∀ (p : Pipeline) (f : TaskDef → Option Bool) (s : ExecState)
        (t cmd stdout stderr : String) (st : ExitSt) (ts iso : String),
      (stepOk (setCof p f) s t cmd stdout stderr st ts iso).aborted =
        (stepOk p s t cmd stdout stderr st ts iso).aborted ∧
      (stepErr (setCof p f) s t).aborted = (stepErr p s t).aborted) := by
  refine ⟨fun p s t cmd stdout stderr st ts iso =>
      stepOk_aborted p s t cmd stdout stderr st ts iso,
    fun p s t => rfl, ?_, ?_⟩
  · intro p s s' hab hstep
    cases hstep with
    | snapshot t td perm h1 h2 h3 h4 =>
      rw [hab] at h1
      cases h1
    | completeOk t cmd stdout stderr st ts iso h1 h2 =>
      rw [hab] at h1
      cases h1
    | completeErr t cmd msg h1 h2 =>
      rw [hab] at h1
      cases h1
  · intro p f s t cmd stdout stderr st ts iso
    constructor
    · rw [stepOk_aborted, stepOk_aborted]
      have hstop : stopOf (setCof p f) = stopOf p := rfl
      rw [hstop]
    · rfl

/-- Claim C2 witness: in `pCof` (`stop_on_fail` true, its task opting into
`continue_on_fail: true`), a completion with exit code 1 aborts, and no step
leaves an aborted state. -/
theorem claim_C2_witness :
    (stepOk pCof (initState pCof) "t" "c" "o" "e" ⟨false, some 1⟩ "ts" "iso").aborted =
      (if (⟨false, some 1⟩ : ExitSt).success = false ∧ stopOf pCof = true then true
       else (initState pCof).aborted) ∧
    ¬ Step pCof { initState pCof with aborted := true } (initState pCof) :=
  ⟨claim_C2.1 pCof (initState pCof) "t" "c" "o" "e" ⟨false, some 1⟩ "ts" "iso",
   claim_C2.2.2.1 pCof { initState pCof with aborted := true } (initState pCof) rfl⟩

/-- Claim C2 counterexample: a failing task whose `continue_on_fail` is true
still aborts the run under `stop_on_fail = true` — the field is parsed but
never read — refuting "does not abort if that task's continue_on_fail is
true". -/
theorem claim_C2_cex :
    taskCof.continue_on_fail = some true ∧ stopOf pCof = true ∧
    ∃ s : ExecState, Reach pCof s ∧ s.aborted = true := by
  refine ⟨rfl, rfl, ?_⟩
  have h0 : Reach pCof (initState pCof) := Reach.init
  have h1 := Reach.step h0 (Step.snapshot (initState pCof) "t" taskCof []
    rfl (List.mem_singleton.mpr rfl) (by decide) List.Perm.nil)
  have h2 := Reach.step h1 (Step.completeOk _ "t"
    (interpolate_command taskCof.run [] (initState pCof).varsM) "o" ""
    ⟨false, some 1⟩ "TS" "ISO" rfl (List.mem_singleton.mpr rfl))
  exact ⟨_, h2, rfl⟩

/-- Claim C5 (amended): every dispatched command is the interpolation of its
task's template against a snapshot of the outputs map taken after every
transitive dependency wrote its output: for each transitive dependency `T`,
the snapshot holds `T`'s entry exactly as the shared map does, and
`interpolate_command` substitutes `\x7b\x7bT.output\x7d\x7d` with that stdout
trimmed of Unicode — not merely ASCII — whitespace (`str::trim`). -/
theorem claim_C5 (p : Pipeline) (hu : UniqueNames p) (s : ExecState)
    (hr : Reach p s) (n cmd : String) (hmem : (n, some cmd) ∈ s.running)
    (T : String) (hdep : Relation.TransGen (depRel p.tasks) n T) :
    ∃ td snap o, p.tasks.find? (fun x => x.name == n) = some td ∧
      cmd = interpolate_command td.run snap [] ∧
      List.lookup T snap = some o ∧ List.lookup T s.outputs = some o := by
  have inv := invReach hu hr
  obtain ⟨td, snap, hfind, hsub, hnd, hcmd, hcov⟩ := inv.cmdOk _ hmem _ rfl
  obtain ⟨o, ho⟩ := hcov T hdep
  exact ⟨td, snap, o, hfind, hcmd, mem_lookup_some hnd ho,
    mem_lookup_some inv.outKeys (hsub _ ho)⟩

/-- Claim C5 witness: in `pTD`, after `a` completes with stdout `"\u00A0x"`
(U+00A0 no-break space, then `x`) and `b` snapshots, `b`'s in-flight command
is `"x"`: the interpolation of its template with the token replaced by the
Unicode-trimmed output. -/
theorem claim_C5_witness :
    ∃ (s : ExecState) (td : TaskDef) (snap : List (String × String)) (o : String),
      Reach pTD s ∧ ("b", some "x") ∈ s.running ∧
      pTD.tasks.find? (fun x => x.name == "b") = some td ∧
      "x" = interpolate_command td.run snap [] ∧
      List.lookup "a" snap = some o ∧ List.lookup "a" s.outputs = some o := by
  have h0 : Reach pTD (initState pTD) := Reach.init
  have h1 := Reach.step h0 (Step.snapshot (initState pTD) "a" taskT []
    rfl (List.mem_singleton.mpr rfl) (by decide) List.Perm.nil)
  have h2 := Reach.step h1 (Step.completeOk _ "a"
    (interpolate_command taskT.run [] (initState pTD).varsM) "\u00A0x" ""
    ⟨true, some 0⟩ "TS" "ISO" rfl (List.mem_singleton.mpr rfl))
  have h3 := Reach.step h2 (Step.snapshot _ "b" taskD [("a", "\u00A0x")]
    rfl (List.mem_singleton.mpr rfl) (by decide) (List.Perm.refl _))
  obtain ⟨td, snap, o, hfind, hcmd, hl1, hl2⟩ := claim_C5 pTD
    (by decide : (pTD.tasks.map (fun t => t.name)).Nodup) _ h3 "b" "x"
    (List.mem_singleton.mpr (by
      show ("b", some "x") =
        ("b", some (interpolate_command taskD.run [("a", "\u00A0x")] []))
      rw [evalTD]))
    "a" (Relation.TransGen.single (by decide : "a" ∈ depsOf pTD.tasks "b"))
  exact ⟨_, td, snap, o, h3,
    List.mem_singleton.mpr (by
      show ("b", some "x") =
        ("b", some (interpolate_command taskD.run [("a", "\u00A0x")] []))
      rw [evalTD]),
    hfind, hcmd, hl1, hl2⟩

/-- Claim C5 counterexample: `str::trim` strips Unicode whitespace, not only
ASCII: with `a`'s stdout `"\u00A0x"` (U+00A0 is whitespace but not ASCII) the
command dispatched for `b` is `"x"`, while the spec's ASCII-trim reading
predicts `"\u00A0x"`. -/
theorem claim_C5_cex :
    interpolate_command taskD.run [("a", "\u00A0x")] [] = "x" ∧
    interpolateAsciiSpec taskD.run [("a", "\u00A0x")] [] = "\u00A0x" ∧
    (∃ s : ExecState, Reach pTD s ∧ ("b", some "x") ∈ s.running ∧
      List.lookup "a" s.outputs = some "\u00A0x") := by
  refine ⟨evalTD, evalTDascii, ?_⟩
  have h0 : Reach pTD (initState pTD) := Reach.init
  have h1 := Reach.step h0 (Step.snapshot (initState pTD) "a" taskT []
    rfl (List.mem_singleton.mpr rfl) (by decide) List.Perm.nil)
  have h2 := Reach.step h1 (Step.completeOk _ "a"
    (interpolate_command taskT.run [] (initState pTD).varsM) "\u00A0x" ""
    ⟨true, some 0⟩ "TS" "ISO" rfl (List.mem_singleton.mpr rfl))
  have h3 := Reach.step h2 (Step.snapshot _ "b" taskD [("a", "\u00A0x")]
    rfl (List.mem_singleton.mpr rfl) (by decide) (List.Perm.refl _))
  refine ⟨_, h3, List.mem_singleton.mpr ?_, by decide⟩
  show ("b", some "x") =
    ("b", some (interpolate_command taskD.run [("a", "\u00A0x")] []))
  rw [evalTD]

/-- Claim C6 (amended): every task with a recorded result has both a `.log`
and a `.json` artifact in the run directory; but a dispatched task whose
completion is an `Err` (spawn/wait/timeout after exhausted retries) writes no
artifacts at all. -/
theorem claim_C6 (p : Pipeline) (hu : UniqueNames p) (s : ExecState)
    (hr : Reach p s) :
    (∀ r ∈ s.resultsList, ∃ ts : String,
      (sanitize_filename r.1 ++ "_" ++ ts ++ ".log") ∈ s.artifacts.map Prod.fst ∧
      (sanitize_filename r.1 ++ "_" ++ ts ++ ".json") ∈ s.artifacts.map Prod.fst) ∧
    (∀ t, (stepErr p s t).artifacts = s.artifacts) :=
  ⟨(invReach hu hr).arts, fun t => rfl⟩

/-- Claim C6 witness: in `pE`, after `t` completes `Ok`, its result is
recorded and both of its artifacts exist in the run directory. -/
theorem claim_C6_witness :
    ∃ (s : ExecState) (cmd ts : String), Reach pE s ∧
      ("t", cmd, "o", "") ∈ s.resultsList ∧
      (sanitize_filename "t" ++ "_" ++ ts ++ ".log") ∈ s.artifacts.map Prod.fst ∧
      (sanitize_filename "t" ++ "_" ++ ts ++ ".json") ∈ s.artifacts.map Prod.fst := by
  have h0 : Reach pE (initState pE) := Reach.init
  have h1 := Reach.step h0 (Step.snapshot (initState pE) "t" taskE []
    rfl (List.mem_singleton.mpr rfl) (by decide) List.Perm.nil)
  have h2 := Reach.step h1 (Step.completeOk _ "t"
    (interpolate_command taskE.run [] (initState pE).varsM) "o" ""
    ⟨true, some 0⟩ "TS" "ISO" rfl (List.mem_singleton.mpr rfl))
  obtain ⟨ts, hl, hj⟩ := (claim_C6 pE
    (by decide : (pE.tasks.map (fun t => t.name)).Nodup) _ h2).1
    ("t", interpolate_command taskE.run [] (initState pE).varsM, "o", "")
    (List.mem_singleton.mpr rfl)
  exact ⟨_, _, ts, h2, List.mem_singleton.mpr rfl, hl, hj⟩

/-- Claim C6 counterexample: in `pE`, task `t` is dispatched and its runner
returns `Err`; the run ends with only `pipeline.yaml` in the run directory —
no `.log` and no `.json` artifact for `t` — refuting artifact coverage for
every dispatched task. -/
theorem claim_C6_cex :
    ∃ s : ExecState, Reach pE s ∧ "t" ∈ s.dispatched ∧ s.running = [] ∧
      s.artifacts.map Prod.fst = ["pipeline.yaml"] := by
  have h0 : Reach pE (initState pE) := Reach.init
  have h1 := Reach.step h0 (Step.snapshot (initState pE) "t" taskE []
    rfl (List.mem_singleton.mpr rfl) (by decide) List.Perm.nil)
  have h2 := Reach.step h1 (Step.completeErr _ "t"
    (interpolate_command taskE.run [] (initState pE).varsM) "spawn failed"
    rfl (List.mem_singleton.mpr rfl))
  exact ⟨_, h2, by decide, rfl, rfl⟩

/-- Claim C8 (amended): what `run_pipeline` persists as `pipeline.yaml` at
run start is the re-serialization of the parsed pipeline value
(`serde_yaml::to_string(&pipeline)`), present in every reachable state; it is
a function of the parsed value, not of the input bytes. -/
theorem claim_C8 (p : Pipeline) (hu : UniqueNames p) (s : ExecState)
    (hr : Reach p s) :
    ("pipeline.yaml", persistedYaml p) ∈ s.artifacts :=
  (invReach hu hr).pyaml

/-- Claim C8 witness: a run of `pE` holds the `pipeline.yaml` artifact with
the re-serialized content from its very first state. -/
theorem claim_C8_witness :
    ("pipeline.yaml", persistedYaml pE) ∈ (initState pE).artifacts :=
  claim_C8 pE (by decide : (pE.tasks.map (fun t => t.name)).Nodup)
    (initState pE) Reach.init

/-- Claim C8 counterexample: two distinct documents parse to the same
pipeline value (YAML comments are ignored), so a persisted rendering that is
a function of the parsed value cannot be byte-for-byte identical to every
input; concretely the rendering differs from the commented document. -/
theorem claim_C8_cex :
    parsePipelineDoc "tasks: []" = some ⟨none, none, none, []⟩ ∧
    parsePipelineDoc "# a comment\ntasks: []" = some ⟨none, none, none, []⟩ ∧
    persistedYaml ⟨none, none, none, []⟩ ≠ "# a comment\ntasks: []" ∧
    ¬ ∀ (c : String) (P : Pipeline), parsePipelineDoc c = some P →
        persistedYaml P = c := by
  refine ⟨by decide, by decide, by decide, ?_⟩
  intro h
  exact absurd (h "# a comment\ntasks: []" ⟨none, none, none, []⟩ (by decide))
    (by decide)

end Rustypipe
